import Mathlib

/-!
epicmeter: the measurement engine of `src/benchmark.cpp`

A shallow embedding of the benchmark registry, the run orchestrator and the
sample collector, followed by theorems about them.

Modelling conventions

* The process state that the clock and the candidates act on is an explicit
  value of an arbitrary type `S`; `clock_type::now()` is a function
  `S → Int × S` and a candidate `std::function<iteration_type(iteration_type)>`
  is a function `Nat → S → Nat × S`.
* `iteration_type::value_type` is an unsigned machine integer of `w` bits whose
  width is declared in a header that is not part of the sources at hand, so `w`
  is a parameter: `numeric_limits::max()` is `2 ^ w - 1` and `n.v *= 2` is
  multiplication modulo `2 ^ w`.
* Nanosecond counts are unbounded integers.
* A `double` is an exact rational number or `+inf`: rounding is not modelled,
  a positive quotient by zero is `+inf`.
* Loops that the source does not bound carry a fuel argument and return
  `none` when the fuel runs out.
* The output sink `d->out` is the list of events it receives.
-/

namespace epicmeter

/-! ## Data model -/

/-- The class `benchmark_t`. -/
structure benchmark_t (S : Type) where
  baseline : Bool
  description : String
  fn : Nat → S → Nat × S

/-- The class `namespace_t`. -/
structure namespace_t (S : Type) where
  benchmarks : List (benchmark_t S)

/-- The configuration `options_t`: `time.min.v`, `time.max.v` and `iters.v`. -/
structure options_t where
  time_min : Int
  time_max : Int
  iters : Nat

/-- The options installed by the constructor of `overlord_t::impl`. -/
def default_options : options_t :=
  { time_min := 100000000, time_max := 1000000000, iters := 1 }

/-! ## `compare_by::baseline` and `std::stable_sort` -/

/-- The comparator `compare_by::baseline`, over any element type that carries
a baseline tag: `lhs.baseline > rhs.baseline`. -/
def compare_by_tag {α : Type} (tag : α → Bool) (lhs rhs : α) : Bool :=
  decide (tag lhs > tag rhs)

/-- The comparator `compare_by::baseline` on candidates. -/
def compare_by_baseline {S : Type} (lhs rhs : benchmark_t S) : Bool :=
  decide (lhs.baseline > rhs.baseline)

/-- The inner loop of an insertion sort, acting on the already sorted prefix
held in reverse: `val` moves towards the front while `comp val next` holds. -/
def linear_insert {α : Type} (comp : α → α → Bool) (val : α) : List α → List α
  | [] => [val]
  | next :: rest =>
    if comp val next then next :: linear_insert comp val rest
    else val :: next :: rest

/-- The library routine `std::stable_sort(first, last, comp)`, as the insertion
sort that the library runs on short ranges: the elements are taken from left to
right and each one is moved towards the front past exactly the elements it
compares less than. For the comparator used here the outcome does not depend
on the sorting method (`stable_sort_unique`). -/
def stable_sort {α : Type} (comp : α → α → Bool) (l : List α) : List α :=
  (l.foldl (fun sorted val => linear_insert comp val sorted) []).reverse

/-! ## The sample collector -/

/-- The bound `std::numeric_limits<iteration_type::value_type>::max()` of a
counter of `w` bits. -/
def iteration_max (w : Nat) : Nat := 2 ^ w - 1

/-- The update `n.v *= 2` on a counter of `w` bits. -/
def iteration_double (w n : Nat) : Nat := (n * 2) % 2 ^ w

/-- The helper `npi`: read the clock, invoke the candidate with `times`, read
the clock again; the result is the reported count and the elapsed time. -/
def npi {S : Type} (now : S → Int × S) (fn : Nat → S → Nat × S) (times : Nat) (s : S) :
    (Nat × Int) × S :=
  let started := now s
  let iters := fn times started.2
  let finished := now iters.2
  ((iters.1, finished.1 - started.1), finished.2)

/-- One invocation of the candidate, as seen by the collector. -/
structure invocation_t where
  times : Nat
  iters : Nat
  elapsed : Int
  deriving DecidableEq, Repr

/-- The value pushed onto `samples`: `std::max(0.0, double(elapsed) / iters.v)`,
a rational number or `+inf`. For a nonzero reported count it is the exact
quotient, clamped at zero. For a reported count of zero the floating-point
quotient is `+inf` when the elapsed time is positive, and the maximum keeps it;
it is not a number or `-inf` otherwise, and then `std::max(0.0, x)`, which is
`(0.0 < x) ? x : 0.0`, returns `0.0`. -/
def sample_value (elapsed : Int) (iters : Nat) : WithTop ℚ :=
  if iters = 0 then (if 0 < elapsed then ⊤ else 0)
  else ((max 0 ((elapsed : ℚ) / (iters : ℚ)) : ℚ) : WithTop ℚ)

/-- What one doubling search did: the invocations it made, in order, and the
sample it pushed, if any. -/
structure search_log where
  calls : List invocation_t
  sample : Option (WithTop ℚ)
  deriving DecidableEq

/-- The state in which a doubling search leaves the collector. -/
structure search_t (S : Type) where
  state : S
  n : Nat
  log : search_log

/-- The inner loop of `overlord_t::run(fn)`:
`for (; n.v < max; n.v *= 2) { npi; if (elapsed < min) continue; push; break; }`. -/
def search {S : Type} (w : Nat) (now : S → Int × S) (opts : options_t)
    (fn : Nat → S → Nat × S) : Nat → Nat → S → Option (search_t S)
  | 0, _, _ => none
  | fuel + 1, n, s =>
    if n < iteration_max w then
      let r := npi now fn n s
      if r.1.2 < opts.time_min then
        (search w now opts fn fuel (iteration_double w n) r.2).map fun out =>
          { out with log := { out.log with calls := ⟨n, r.1.1, r.1.2⟩ :: out.log.calls } }
      else
        some { state := r.2, n := n,
               log := { calls := [⟨n, r.1.1, r.1.2⟩],
                        sample := some (sample_value r.1.2 r.1.1) } }
    else
      some { state := s, n := n, log := { calls := [], sample := none } }

/-- The result of a collection run: the vector `samples`, and the log of every
outer iteration that was performed. -/
structure collected_t (S : Type) where
  state : S
  n : Nat
  samples : List (WithTop ℚ)
  searches : List search_log

/-- The outer loop of `overlord_t::run(fn)` with `left` iterations still allowed:
`for (sample < 1024) { search; total = now() - start; if (total >= max) break; }`. -/
def collect {S : Type} (w : Nat) (now : S → Int × S) (opts : options_t)
    (fn : Nat → S → Nat × S) (fuel : Nat) (start : Int) :
    Nat → Nat → S → Option (collected_t S)
  | 0, n, s => some { state := s, n := n, samples := [], searches := [] }
  | left + 1, n, s =>
    match search w now opts fn fuel n s with
    | none => none
    | some r =>
      let t := now r.state
      if t.1 - start ≥ opts.time_max then
        some { state := t.2, n := r.n, samples := r.log.sample.toList, searches := [r.log] }
      else
        (collect w now opts fn fuel start left r.n t.2).map fun out =>
          { out with samples := r.log.sample.toList ++ out.samples,
                     searches := r.log :: out.searches }

/-- The collector `overlord_t::run(fn)`. -/
def run_fn {S : Type} (w : Nat) (now : S → Int × S) (opts : options_t) (fuel : Nat)
    (fn : Nat → S → Nat × S) (s : S) : Option (collected_t S) :=
  let start := now s
  collect w now opts fn fuel start.1 1024 opts.iters start.2

/-! ## The run orchestrator -/

/-- The summary `stats_t`, built from the sample vector; what it computes from
the samples is outside this development. -/
structure stats_t where
  samples : List (WithTop ℚ)
  deriving DecidableEq

/-- The calls received by the output sink `d->out`. -/
inductive event_t where
  | global_count (groups : Nat)
  | global_ns (v : Int)
  | package_open (name : String) (size : Nat)
  | package_ns (v : Int)
  | benchmark_name (description : String)
  | benchmark_stats (stats : stats_t)
  | benchmark_compare (stats baseline : stats_t)
  deriving DecidableEq

/-- The object `overlord_t::impl`, without its sink: the map of groups, as the
list of its entries in iteration order, and the options. -/
structure impl (S : Type) where
  namespaces : List (String × namespace_t S)
  options : options_t

/-- The statement `namespaces[ns].benchmarks.push_back(b)` on the entries of
the map: the entry with key `ns` receives `b` at the end of its vector; when
there is no such entry, `operator[]` first creates one with an empty vector.
A created entry is placed last in the iteration order. -/
def push_back_at {S : Type} (ns : String) (b : benchmark_t S) :
    List (String × namespace_t S) → List (String × namespace_t S)
  | [] => [(ns, ⟨[b]⟩)]
  | entry :: rest =>
    if entry.1 = ns then (entry.1, ⟨entry.2.benchmarks ++ [b]⟩) :: rest
    else entry :: push_back_at ns b rest

/-- The method `overlord_t::add`. -/
def add {S : Type} (d : impl S) (ns cs : String) (baseline : Bool)
    (fn : Nat → S → Nat × S) : impl S :=
  { d with namespaces := push_back_at ns ⟨baseline, cs, fn⟩ d.namespaces }

/-- The arguments of one call of `overlord_t::add`. -/
structure registration_t (S : Type) where
  ns : String
  cs : String
  baseline : Bool
  fn : Nat → S → Nat × S

/-- The registry after a sequence of calls of `overlord_t::add`. -/
def register_all {S : Type} (regs : List (registration_t S)) (d : impl S) : impl S :=
  regs.foldl (fun d r => add d r.ns r.cs r.baseline r.fn) d

/-- The candidates registered under `name` by a sequence of calls of
`overlord_t::add`, in registration order. -/
def registered_under {S : Type} (name : String) (regs : List (registration_t S)) :
    List (benchmark_t S) :=
  (regs.filter fun r => decide (r.ns = name)).map fun r => ⟨r.baseline, r.cs, r.fn⟩

/-- The method `overlord_t::run(const benchmark_t&)`. -/
def run_benchmark {S : Type} (w : Nat) (now : S → Int × S) (opts : options_t) (fuel : Nat)
    (benchmark : benchmark_t S) (s : S) : Option (List event_t × S) :=
  (run_fn w now opts fuel benchmark.fn s).map fun c =>
    ([event_t.benchmark_name benchmark.description, event_t.benchmark_stats ⟨c.samples⟩],
      c.state)

/-- The method `overlord_t::run(const benchmark_t&, std::unique_ptr<stats_t>&)`;
the pointer `baseline` is passed in and handed back. -/
def run_benchmark_against {S : Type} (w : Nat) (now : S → Int × S) (opts : options_t)
    (fuel : Nat) (benchmark : benchmark_t S) (baseline : Option stats_t) (s : S) :
    Option (List event_t × Option stats_t × S) :=
  (run_fn w now opts fuel benchmark.fn s).map fun c =>
    let stats : stats_t := ⟨c.samples⟩
    let held : stats_t :=
      match baseline with
      | none => stats
      | some b => b
    ([event_t.benchmark_name benchmark.description, event_t.benchmark_compare stats held],
      some held, c.state)

/-- The loop `for (; it != end; ++it) run(*it);`. -/
def run_each {S : Type} (w : Nat) (now : S → Int × S) (opts : options_t) (fuel : Nat) :
    List (benchmark_t S) → S → Option (List event_t × S)
  | [], s => some ([], s)
  | b :: rest, s =>
    match run_benchmark w now opts fuel b s with
    | none => none
    | some (evs, s1) =>
      (run_each w now opts fuel rest s1).map fun out => (evs ++ out.1, out.2)

/-- The loop `for (; it != end; ++it) run(*it, baseline);`. -/
def run_each_against {S : Type} (w : Nat) (now : S → Int × S) (opts : options_t)
    (fuel : Nat) : List (benchmark_t S) → Option stats_t → S → Option (List event_t × S)
  | [], _, s => some ([], s)
  | b :: rest, baseline, s =>
    match run_benchmark_against w now opts fuel b baseline s with
    | none => none
    | some (evs, held, s1) =>
      (run_each_against w now opts fuel rest held s1).map fun out => (evs ++ out.1, out.2)

/-- The method `overlord_t::run(const std::string&, namespace_t&&)`. -/
def run_namespace {S : Type} (w : Nat) (now : S → Int × S) (opts : options_t) (fuel : Nat)
    (name : String) (ns : namespace_t S) (s : S) : Option (List event_t × S) :=
  let benchmarks := stable_sort compare_by_baseline ns.benchmarks
  let body : Option (List event_t × S) :=
    match benchmarks with
    | [] => some ([], s)
    | first :: _ =>
      if first.baseline then run_each_against w now opts fuel benchmarks none s
      else run_each w now opts fuel benchmarks s
  body.map fun out =>
    (event_t.package_open name benchmarks.length :: (out.1 ++ [event_t.package_ns 1000000]),
      out.2)

/-- The loop of `overlord_t::run()` over the entries of the map. -/
def run_namespaces {S : Type} (w : Nat) (now : S → Int × S) (opts : options_t)
    (fuel : Nat) : List (String × namespace_t S) → S → Option (List event_t × S)
  | [], s => some ([], s)
  | entry :: rest, s =>
    match run_namespace w now opts fuel entry.1 entry.2 s with
    | none => none
    | some (evs, s1) =>
      (run_namespaces w now opts fuel rest s1).map fun out => (evs ++ out.1, out.2)

/-- The method `overlord_t::run()`. -/
def run {S : Type} (w : Nat) (now : S → Int × S) (fuel : Nat) (d : impl S) (s : S) :
    Option (List event_t × S) :=
  (run_namespaces w now d.options fuel d.namespaces s).map fun out =>
    (event_t.global_count d.namespaces.length
        :: (out.1 ++ [event_t.global_ns 1000000000]),
      out.2)

/-! ## The signature adapters -/

/-- Modelled from the spec: the operator `+=` of `iteration_type`, which is
declared in the header that is not among the sources. The repeater is described
as summing the counts that the calls report; the sum is taken in the arithmetic
of a counter of `w` bits. -/
def iteration_add (w a b : Nat) : Nat := (a + b) % 2 ^ w

/-- The helper `single`: call the candidate and report one iteration. -/
def single {S : Type} (fn : S → S) (s : S) : Nat × S :=
  (1, fn s)

/-- The helper `pass`: call the candidate with `times` and report `times`. -/
def pass {S : Type} (fn : Nat → S → S) (times : Nat) (s : S) : Nat × S :=
  (times, fn times s)

/-- The loop of `repeater`, `while (times.v-- > 0) iters += fn();`, with
`times` calls still to make and `iters` counted so far. -/
def repeater_loop {S : Type} (w : Nat) (fn : S → Nat × S) : Nat → Nat → S → Nat × S
  | 0, iters, s => (iters, s)
  | times + 1, iters, s =>
    let r := fn s
    repeater_loop w fn times (iteration_add w iters r.1) r.2

/-- The helper `repeater`. -/
def repeater {S : Type} (w : Nat) (fn : S → Nat × S) (times : Nat) (s : S) : Nat × S :=
  repeater_loop w fn times 0 s

/-- The overload `detail::wrap(std::function<iteration_type(iteration_type)>)`. -/
def wrap_count_count {S : Type} (fn : Nat → S → Nat × S) : Nat → S → Nat × S :=
  fn

/-- The overload `detail::wrap(std::function<void(iteration_type)>)`:
`std::bind(&pass, fn, _1)`. -/
def wrap_count_void {S : Type} (fn : Nat → S → S) : Nat → S → Nat × S :=
  fun times => pass fn times

/-- The overload `detail::wrap(std::function<iteration_type()>)`:
`std::bind(&repeater, fn, _1)`. -/
def wrap_nullary_count {S : Type} (w : Nat) (fn : S → Nat × S) : Nat → S → Nat × S :=
  fun times => repeater w fn times

/-- The overload `detail::wrap(std::function<void()>)`:
`std::bind(&repeater, std::bind(&single, fn), _1)`. -/
def wrap_nullary_void {S : Type} (w : Nat) (fn : S → S) : Nat → S → Nat × S :=
  fun times => repeater w (single fn) times

/-! ## A concrete process, for evaluating the definitions -/

/-- A clock that is the process state itself: reading it does not advance it. -/
def wall_clock (t : Int) : Int × Int := (t, t)

/-- A candidate of shape count to void that takes `cost` nanoseconds per
iteration and reports the requested count. -/
def steady (cost : Int) (times : Nat) (t : Int) : Nat × Int :=
  (times, t + cost * (times : Int))

/-- A clock that advances by `step` nanoseconds every time it is read. -/
def ticking (step : Int) (t : Int) : Int × Int := (t, t + step)

/-- A candidate of shape count to void whose running time of `cost`
nanoseconds does not depend on the requested count. -/
def flat (cost : Int) (times : Nat) (t : Int) : Nat × Int :=
  (times, t + cost)

/-- A candidate of shape count to void that takes 5 nanoseconds for a nonzero
count and a full second when it is asked for zero iterations. -/
def stall (times : Nat) (t : Int) : Nat × Int :=
  (times, t + if times = 0 then 1000000000 else 5)

/-- The default options with the counter starting at the largest value of a
counter of 64 bits. -/
def saturated_options : options_t :=
  { time_min := 100000000, time_max := 1000000000, iters := 2 ^ 64 - 1 }

/-- The collection run of a candidate that takes a millisecond per iteration,
under the default options. -/
def millisecond_run : collected_t Int :=
  { state := 1023000000, n := 128,
    samples := List.replicate 7 (sample_value 128000000 128),
    searches :=
      ⟨[⟨1, 1, 1000000⟩, ⟨2, 2, 2000000⟩, ⟨4, 4, 4000000⟩, ⟨8, 8, 8000000⟩,
        ⟨16, 16, 16000000⟩, ⟨32, 32, 32000000⟩, ⟨64, 64, 64000000⟩,
        ⟨128, 128, 128000000⟩], some (sample_value 128000000 128)⟩
      :: List.replicate 6 ⟨[⟨128, 128, 128000000⟩], some (sample_value 128000000 128)⟩ }

/-- The collection run that starts with a saturated counter, on a clock that
advances a second per reading. -/
def saturated_run : collected_t Int :=
  { state := 2000000000, n := 2 ^ 64 - 1, samples := [], searches := [⟨[], none⟩] }

/-- The summary of a candidate that takes a millisecond per iteration. -/
def millisecond_stats : stats_t := ⟨List.replicate 7 (sample_value 128000000 128)⟩

/-- The summary of a candidate that takes two milliseconds per iteration. -/
def two_millisecond_stats : stats_t := ⟨List.replicate 7 (sample_value 128000000 64)⟩

/-- The group "math" with a baseline "v1" and a second candidate "v2". -/
def math_versions : namespace_t Int :=
  ⟨[⟨true, "v1", steady 1000000⟩, ⟨false, "v2", steady 2000000⟩]⟩

/-- The group "math" with the single candidate "naive", not a baseline. -/
def math_naive : namespace_t Int :=
  ⟨[⟨false, "naive", steady 1000000⟩]⟩

/-- A group registered as "v2", then the baseline "v1", then "v3". -/
def shuffled_group : List (benchmark_t Int) :=
  [⟨false, "v2", steady 2000000⟩, ⟨true, "v1", steady 1000000⟩,
    ⟨false, "v3", steady 2000000⟩]

/-- Three registrations: "v1" as baseline of "math", "read" in "io", then "v2"
in "math". -/
def sample_registrations : List (registration_t Int) :=
  [⟨"math", "v1", true, steady 1000000⟩, ⟨"io", "read", false, steady 2000000⟩,
    ⟨"math", "v2", false, steady 2000000⟩]

/-- The events of a run of the three sample registrations. -/
def sample_events : List event_t :=
  [event_t.global_count 2,
    event_t.package_open "math" 2,
    event_t.benchmark_name "v1",
    event_t.benchmark_compare millisecond_stats millisecond_stats,
    event_t.benchmark_name "v2",
    event_t.benchmark_compare two_millisecond_stats millisecond_stats,
    event_t.package_ns 1000000,
    event_t.package_open "io" 1,
    event_t.benchmark_name "read",
    event_t.benchmark_stats two_millisecond_stats,
    event_t.package_ns 1000000,
    event_t.global_ns 1000000000]

/-- Options with negative bounds, for a clock that runs backwards. -/
def backward_options : options_t :=
  { time_min := -10, time_max := -100, iters := 1 }

/-- The collection run of an instantaneous candidate on a clock that loses
5 nanoseconds per reading, under the options with negative bounds. -/
def backward_run : collected_t Int :=
  { state := -20, n := 1, samples := [sample_value (-5) 1],
    searches := [⟨[⟨1, 1, -5⟩], some (sample_value (-5) 1)⟩] }

/-- The default options with the ceiling lowered to 300 milliseconds. -/
def short_options : options_t :=
  { time_min := 100000000, time_max := 300000000, iters := 1 }

/-! ## Vocabulary for statements about the collector -/

/-- A doubling search stopped at an invocation that reached the floor `D`: it
is the last invocation, every earlier one stayed below `D`, and the sample is
computed from it. -/
def accepted (D : Int) (log : search_log) : Prop :=
  ∃ (early : List invocation_t) (last : invocation_t),
    log.calls = early ++ [last] ∧ (∀ e ∈ early, e.elapsed < D) ∧ D ≤ last.elapsed
      ∧ log.sample = some (sample_value last.elapsed last.iters)

/-- A doubling search stopped at the loop guard: no invocation reached the
floor `D` and nothing was pushed. -/
def cut_short (D : Int) (log : search_log) : Prop :=
  (∀ e ∈ log.calls, e.elapsed < D) ∧ log.sample = none

/-- The requested counts that the doubling rule prescribes for a sequence of
invocations when the counter stands at `n`: the counter is doubled after every
invocation that stayed below `D` and is left alone otherwise. -/
def doubling_requests (w : Nat) (D : Int) : Nat → List invocation_t → List Nat
  | _, [] => []
  | n, c :: cs =>
    n :: doubling_requests w D (if c.elapsed < D then iteration_double w n else n) cs

/-- The counter after a sequence of invocations under the doubling rule. -/
def doubling_final (w : Nat) (D : Int) : Nat → List invocation_t → Nat
  | n, [] => n
  | n, c :: cs => doubling_final w D (if c.elapsed < D then iteration_double w n else n) cs

/-- The candidates of a group in processing order, each labelled with its
position in the registered list. -/
def processing_order {S : Type} (l : List (benchmark_t S)) : List (Nat × benchmark_t S) :=
  stable_sort (compare_by_tag fun p : Nat × benchmark_t S => p.2.baseline) l.enum

/-- The number of invocations in a sequence that stayed below the floor `D`. -/
def below_floor (D : Int) (calls : List invocation_t) : Nat :=
  calls.countP fun c => decide (c.elapsed < D)

/-- The summaries obtained by measuring the candidates of a list one after the
other, each with the collector, starting in state `s`. -/
def measure_each {S : Type} (w : Nat) (now : S → Int × S) (opts : options_t) (fuel : Nat) :
    List (benchmark_t S) → S → Option (List stats_t × S)
  | [], s => some ([], s)
  | b :: rest, s =>
    match run_fn w now opts fuel b.fn s with
    | none => none
    | some c =>
      (measure_each w now opts fuel rest c.state).map fun out => (⟨c.samples⟩ :: out.1, out.2)

/-- The two events of a candidate on the standalone path. -/
def standalone_events {S : Type} (b : benchmark_t S) (stats : stats_t) : List event_t :=
  [event_t.benchmark_name b.description, event_t.benchmark_stats stats]

/-- The two events of a candidate on the comparison path, against `base`. -/
def comparison_events {S : Type} (base : stats_t) (b : benchmark_t S) (stats : stats_t) :
    List event_t :=
  [event_t.benchmark_name b.description, event_t.benchmark_compare stats base]

/-- The events of one group, given its candidates in processing order and the
events that follow the label of each. -/
def group_events {S : Type} (name : String) (ordered : List (benchmark_t S))
    (results : List event_t) : List event_t :=
  event_t.package_open name ordered.length
    :: ((List.zipWith (fun b r => [event_t.benchmark_name b.description, r])
          ordered results).flatten
        ++ [event_t.package_ns 1000000])

/-- The events of a whole run, given for each group the events that follow the
labels of its candidates. -/
def run_events {S : Type} (groups : List (String × namespace_t S))
    (results : List (List event_t)) : List event_t :=
  event_t.global_count groups.length
    :: ((List.zipWith
          (fun g rs => group_events g.1 (stable_sort compare_by_baseline g.2.benchmarks) rs)
          groups results).flatten
        ++ [event_t.global_ns 1000000000])

/-- The result events of a group whose candidates produced the summaries
`sts`, in processing order: on the comparison path each summary is reported
against the first one, on the standalone path each is reported alone. -/
def result_events (comparison : Bool) (sts : List stats_t) : List event_t :=
  if comparison then sts.map fun st => event_t.benchmark_compare st (sts.headD ⟨[]⟩)
  else sts.map fun st => event_t.benchmark_stats st

/-- A result event carries a summary, alone or with a baseline summary. -/
def is_result : event_t → Bool
  | event_t.benchmark_stats _ => true
  | event_t.benchmark_compare _ _ => true
  | _ => false

/-- A result event of the comparison path. -/
def carries_baseline : event_t → Bool
  | event_t.benchmark_compare _ _ => true
  | _ => false

/-- A result event of the standalone path. -/
def is_standalone : event_t → Bool
  | event_t.benchmark_stats _ => true
  | _ => false

/-- One iteration of the outer loop of the collector: what its doubling search
returned, the value `total` read after it, and the state after that reading. -/
structure step_t (S : Type) where
  result : search_t S
  total : Int
  after : S

/-- The outer loop of `overlord_t::run(fn)` once more, keeping for every
iteration the value of `total`; `collect_eq_assemble` shows that it is the same
loop as `collect`. -/
def collect_steps {S : Type} (w : Nat) (now : S → Int × S) (opts : options_t)
    (fn : Nat → S → Nat × S) (fuel : Nat) (start : Int) :
    Nat → Nat → S → Option (List (step_t S))
  | 0, _, _ => some []
  | left + 1, n, s =>
    match search w now opts fn fuel n s with
    | none => none
    | some r =>
      let t := now r.state
      if t.1 - start ≥ opts.time_max then some [⟨r, t.1 - start, t.2⟩]
      else
        (collect_steps w now opts fn fuel start left r.n t.2).map fun rest =>
          ⟨r, t.1 - start, t.2⟩ :: rest

/-- The result of the collector, from the iterations of its outer loop. -/
def assemble {S : Type} : Nat → S → List (step_t S) → collected_t S
  | n, s, [] => { state := s, n := n, samples := [], searches := [] }
  | _, _, st :: rest =>
    let out := assemble st.result.n st.after rest
    { out with samples := st.result.log.sample.toList ++ out.samples,
               searches := st.result.log :: out.searches }

/-- A candidate of shape count to void that records the count of every
invocation next to the state it acts on. -/
def logged {S : Type} (g : Nat → S → S) (times : Nat) (p : S × List Nat) : S × List Nat :=
  (g times p.1, p.2 ++ [times])

/-- A candidate without argument that counts its invocations next to the state
it acts on. -/
def counted {S : Type} (h : S → Nat × S) (p : S × Nat) : Nat × (S × Nat) :=
  ((h p.1).1, ((h p.1).2, p.2 + 1))

/-- A void candidate without argument that counts its invocations next to the
state it acts on. -/
def counted_void {S : Type} (f : S → S) (p : S × Nat) : S × Nat :=
  (f p.1, p.2 + 1)

/-- The counts reported by `times` successive calls of a candidate without
argument, starting in state `s`. -/
def reports {S : Type} (h : S → Nat × S) : Nat → S → List Nat
  | 0, _ => []
  | times + 1, s => (h s).1 :: reports h times (h s).2

/-- The candidates of the group `name` of a registry; none when there is no
such group. -/
def benchmarks_of {S : Type} (name : String) (d : impl S) : List (benchmark_t S) :=
  match d.namespaces.find? fun entry => decide (entry.1 = name) with
  | some entry => entry.2.benchmarks
  | none => []

/-- The two iterations of the outer loop when a candidate that takes a
millisecond per iteration is measured under the lowered ceiling. -/
def short_steps : List (step_t Int) :=
  [⟨{ state := 255000000, n := 128,
      log := ⟨[⟨1, 1, 1000000⟩, ⟨2, 2, 2000000⟩, ⟨4, 4, 4000000⟩, ⟨8, 8, 8000000⟩,
        ⟨16, 16, 16000000⟩, ⟨32, 32, 32000000⟩, ⟨64, 64, 64000000⟩,
        ⟨128, 128, 128000000⟩], some (sample_value 128000000 128)⟩ },
      255000000, 255000000⟩,
    ⟨{ state := 383000000, n := 128,
       log := ⟨[⟨128, 128, 128000000⟩], some (sample_value 128000000 128)⟩ },
      383000000, 383000000⟩]

/-- Every invocation of a collection run, in order. -/
def all_calls (searches : List search_log) : List invocation_t :=
  searches.flatMap fun log => log.calls

/-! ## Basic facts about the reorder -/

theorem compare_by_baseline_eq {S : Type} :
    (compare_by_baseline : benchmark_t S → benchmark_t S → Bool)
      = compare_by_tag benchmark_t.baseline := rfl

theorem compare_by_tag_eq {α : Type} (tag : α → Bool) (a b : α) :
    compare_by_tag tag a b = (tag a && !tag b) := by
  unfold compare_by_tag
  cases tag a <;> cases tag b <;> decide

theorem linear_insert_tagged {α : Type} (tag : α → Bool) (val : α) (hv : tag val = true)
    (ns bs : List α) (hn : ∀ x ∈ ns, tag x = false) (hb : ∀ x ∈ bs, tag x = true) :
    linear_insert (compare_by_tag tag) val (ns ++ bs) = ns ++ val :: bs := by
  induction ns with
  | nil =>
    cases bs with
    | nil => rfl
    | cons b bs =>
      have hb1 : tag b = true := hb b (List.mem_cons_self _ _)
      simp [linear_insert, compare_by_tag_eq, hv, hb1]
  | cons n ns ih =>
    have hn1 : tag n = false := hn n (List.mem_cons_self _ _)
    have ih1 := ih (fun x hx => hn x (List.mem_cons_of_mem _ hx))
    simp [linear_insert, compare_by_tag_eq, hv, hn1, ih1]

theorem linear_insert_untagged {α : Type} (tag : α → Bool) (val : α) (hv : tag val = false)
    (l : List α) : linear_insert (compare_by_tag tag) val l = val :: l := by
  cases l with
  | nil => rfl
  | cons b bs => simp [linear_insert, compare_by_tag_eq, hv]

theorem foldl_linear_insert {α : Type} (tag : α → Bool) (l : List α) :
    ∀ done : List α,
      List.foldl (fun sorted val => linear_insert (compare_by_tag tag) val sorted)
          ((done.filter (fun x => !tag x)).reverse ++ (done.filter tag).reverse) l
        = (((done ++ l).filter (fun x => !tag x)).reverse
            ++ ((done ++ l).filter tag).reverse) := by
  induction l with
  | nil => intro done; simp
  | cons a l ih =>
    intro done
    have key := ih (done ++ [a])
    rw [List.foldl_cons]
    cases ha : tag a with
    | true =>
      rw [linear_insert_tagged tag a ha _ _ (by simp) (by simp)]
      simpa [List.filter_append, List.filter_cons, ha] using key
    | false =>
      rw [linear_insert_untagged tag a ha]
      simpa [List.filter_append, List.filter_cons, ha] using key

/-- The reorder puts the tagged elements first and keeps the registration
order inside each of the two classes. -/
theorem stable_sort_eq_filter {α : Type} (tag : α → Bool) (l : List α) :
    stable_sort (compare_by_tag tag) l = l.filter tag ++ l.filter (fun x => !tag x) := by
  have h := foldl_linear_insert tag l []
  simp only [List.filter_nil, List.reverse_nil, List.nil_append] at h
  unfold stable_sort
  rw [h]
  simp

/-- A list that is sorted for the comparator has its tagged elements first. -/
theorem sorted_eq_filter {α : Type} (tag : α → Bool) (out : List α)
    (hs : out.Pairwise fun a b => compare_by_tag tag b a = false) :
    out = out.filter tag ++ out.filter (fun x => !tag x) := by
  induction out with
  | nil => rfl
  | cons a out ih =>
    obtain ⟨h1, h2⟩ := List.pairwise_cons.mp hs
    cases ha : tag a with
    | true =>
      simp only [List.filter_cons, ha, if_true, Bool.not_true, Bool.false_eq_true, if_false,
        List.cons_append]
      rw [← ih h2]
    | false =>
      have hnone : out.filter tag = [] := by
        rw [List.filter_eq_nil_iff]
        intro b hb htb
        have := h1 b hb
        rw [compare_by_tag_eq, htb, ha] at this
        cases this
      have hall : out.filter (fun x => !tag x) = out := by
        rw [List.filter_eq_self]
        intro b hb
        cases htb : tag b with
        | false => rfl
        | true =>
          have := List.filter_eq_nil_iff.mp hnone b hb
          exact absurd htb this
      simp [List.filter_cons, ha, hnone, hall]

/-- The result of a stable sort is determined by its contract: every
arrangement of `l` that is sorted for the comparator and keeps the order inside
each of the two classes is the one that `stable_sort` computes. -/
theorem stable_sort_unique {α : Type} (tag : α → Bool) (l out : List α)
    (hs : out.Pairwise fun a b => compare_by_tag tag b a = false)
    (h1 : out.filter tag = l.filter tag)
    (h2 : out.filter (fun x => !tag x) = l.filter (fun x => !tag x)) :
    out = stable_sort (compare_by_tag tag) l := by
  rw [stable_sort_eq_filter, ← h1, ← h2]
  exact sorted_eq_filter tag out hs

theorem stable_sort_length {S : Type} (l : List (benchmark_t S)) :
    (stable_sort compare_by_baseline l).length = l.length := by
  rw [compare_by_baseline_eq, stable_sort_eq_filter]
  exact (List.filter_append_perm _ l).length_eq

theorem mem_stable_sort {S : Type} (l : List (benchmark_t S)) (b : benchmark_t S) :
    b ∈ stable_sort compare_by_baseline l ↔ b ∈ l := by
  rw [compare_by_baseline_eq, stable_sort_eq_filter]
  exact (List.filter_append_perm _ l).mem_iff

theorem stable_sort_map {α β : Type} (f : α → β) (tag : β → Bool) (l : List α) :
    (stable_sort (compare_by_tag (fun a => tag (f a))) l).map f
      = stable_sort (compare_by_tag tag) (l.map f) := by
  rw [stable_sort_eq_filter, stable_sort_eq_filter]
  simp [List.filter_map, Function.comp_def]

theorem enum_pairwise_fst {α : Type} (l : List α) :
    l.enum.Pairwise (fun a b => a.1 < b.1) := by
  have h : (l.enum.map Prod.fst).Pairwise (· < ·) := by
    rw [List.enum_map_fst]; exact List.pairwise_lt_range _
  exact (List.pairwise_map.mp h)

theorem processing_order_pairwise {S : Type} (l : List (benchmark_t S)) :
    (processing_order l).Pairwise
      (fun a b => a.2.baseline = b.2.baseline → a.1 < b.1) := by
  unfold processing_order
  rw [stable_sort_eq_filter]
  rw [List.pairwise_append]
  refine ⟨?_, ?_, ?_⟩
  · refine List.Pairwise.imp ?_ ((enum_pairwise_fst l).filter _)
    intro a b h _
    exact h
  · refine List.Pairwise.imp ?_ ((enum_pairwise_fst l).filter _)
    intro a b h _
    exact h
  · intro a ha b hb hab
    have h1 := (List.mem_filter.mp ha).2
    have h2 := (List.mem_filter.mp hb).2
    simp only [Bool.not_eq_eq_eq_not, Bool.not_true] at h2
    rw [h1, h2] at hab
    exact absurd hab (by decide)

/-! ## Basic facts about the collector -/

theorem doubling_requests_append (w : Nat) (D : Int) (a b : List invocation_t) :
    ∀ n : Nat, doubling_requests w D n (a ++ b)
      = doubling_requests w D n a ++ doubling_requests w D (doubling_final w D n a) b := by
  induction a with
  | nil => intro n; rfl
  | cons c cs ih => intro n; simp [doubling_requests, doubling_final, ih]

theorem doubling_final_append (w : Nat) (D : Int) (a b : List invocation_t) :
    ∀ n : Nat, doubling_final w D n (a ++ b)
      = doubling_final w D (doubling_final w D n a) b := by
  induction a with
  | nil => intro n; rfl
  | cons c cs ih => intro n; simp [doubling_final, ih]

theorem doubling_requests_length (w : Nat) (D : Int) (l : List invocation_t) :
    ∀ n : Nat, (doubling_requests w D n l).length = l.length := by
  induction l with
  | nil => intro n; rfl
  | cons c cs ih => intro n; simp [doubling_requests, ih]

theorem sample_value_millisecond :
    sample_value 128000000 128 = ((1000000 : ℚ) : WithTop ℚ) := by
  norm_num [sample_value]

/-- A candidate that reports no iteration for a positive elapsed time gives an
infinite sample. -/
theorem sample_value_zero_count : sample_value 100000000 0 = ⊤ := by
  simp [sample_value]

theorem sample_value_nonneg (elapsed : Int) (iters : Nat) :
    0 ≤ sample_value elapsed iters := by
  unfold sample_value
  split_ifs
  · exact le_top
  · exact le_refl _
  · exact_mod_cast le_max_left (0 : ℚ) _

/-- What a doubling search that returns has done. -/
theorem search_some {S : Type} (w : Nat) (now : S → Int × S) (opts : options_t)
    (fn : Nat → S → Nat × S) :
    ∀ (fuel n : Nat) (s : S) (r : search_t S),
      search w now opts fn fuel n s = some r →
        r.log.calls.map invocation_t.times
            = doubling_requests w opts.time_min n r.log.calls
          ∧ r.n = doubling_final w opts.time_min n r.log.calls
          ∧ ((accepted opts.time_min r.log ∧ r.n < iteration_max w)
              ∨ (cut_short opts.time_min r.log ∧ ¬ r.n < iteration_max w)) := by
  intro fuel
  induction fuel with
  | zero => intro n s r h; simp [search] at h
  | succ fuel ih =>
    intro n s r h
    simp only [search] at h
    split_ifs at h with h1 h2
    · obtain ⟨out, hout, rfl⟩ := Option.map_eq_some'.mp h
      obtain ⟨e1, e2, e3⟩ := ih _ _ _ hout
      refine ⟨?_, ?_, ?_⟩
      · simp [doubling_requests, h2, e1]
      · simp [doubling_final, h2, e2]
      · rcases e3 with ⟨⟨early, last, c1, c2, c3, c4⟩, c5⟩ | ⟨⟨c1, c2⟩, c3⟩
        · left
          refine ⟨⟨(⟨n, (npi now fn n s).1.1, (npi now fn n s).1.2⟩ : invocation_t) :: early,
            last, ?_, ?_, c3, c4⟩, c5⟩
          · simp [c1]
          · intro e he
            rcases List.mem_cons.mp he with rfl | he
            · exact h2
            · exact c2 e he
        · right
          refine ⟨⟨?_, c2⟩, c3⟩
          intro e he
          rcases List.mem_cons.mp he with rfl | he
          · exact h2
          · exact c1 e he
    · cases h
      refine ⟨?_, ?_, ?_⟩
      · simp [doubling_requests]
      · simp [doubling_final, h2]
      · left
        exact ⟨⟨[], _, rfl, by simp, not_lt.mp h2, rfl⟩, h1⟩
    · cases h
      refine ⟨rfl, rfl, ?_⟩
      right
      exact ⟨⟨by simp, rfl⟩, h1⟩

/-- More fuel does not change what a doubling search returns. -/
theorem search_fuel_succ {S : Type} (w : Nat) (now : S → Int × S) (opts : options_t)
    (fn : Nat → S → Nat × S) :
    ∀ (fuel n : Nat) (s : S) (r : search_t S),
      search w now opts fn fuel n s = some r →
        search w now opts fn (fuel + 1) n s = some r := by
  intro fuel
  induction fuel with
  | zero => intro n s r h; simp [search] at h
  | succ fuel ih =>
    intro n s r h
    rw [search] at h ⊢
    dsimp only at h ⊢
    split_ifs at h ⊢ with h1 h2
    · obtain ⟨out, hout, rfl⟩ := Option.map_eq_some'.mp h
      rw [ih _ _ _ hout]
      rfl
    · exact h
    · exact h

theorem search_fuel_mono {S : Type} (w : Nat) (now : S → Int × S) (opts : options_t)
    (fn : Nat → S → Nat × S) (fuel more n : Nat) (s : S) (r : search_t S)
    (h : search w now opts fn fuel n s = some r) :
    search w now opts fn (fuel + more) n s = some r := by
  induction more with
  | zero => exact h
  | succ more ih => exact search_fuel_succ w now opts fn _ n s r ih

theorem collect_fuel_mono {S : Type} (w : Nat) (now : S → Int × S) (opts : options_t)
    (fn : Nat → S → Nat × S) (fuel more : Nat) (start : Int) :
    ∀ (left n : Nat) (s : S) (c : collected_t S),
      collect w now opts fn fuel start left n s = some c →
        collect w now opts fn (fuel + more) start left n s = some c := by
  intro left
  induction left with
  | zero => intro n s c h; exact h
  | succ left ih =>
    intro n s c h
    simp only [collect] at h ⊢
    split at h
    · cases h
    · rename_i r hr
      rw [search_fuel_mono w now opts fn fuel more n s r hr]
      simp only
      split_ifs at h ⊢ with ht
      · exact h
      · obtain ⟨out, hout, rfl⟩ := Option.map_eq_some'.mp h
        rw [ih _ _ _ hout]
        rfl

/-- More fuel does not change what a collection run returns. -/
theorem run_fn_fuel_mono {S : Type} (w : Nat) (now : S → Int × S) (opts : options_t)
    (fn : Nat → S → Nat × S) (fuel more : Nat) (s : S) (c : collected_t S)
    (h : run_fn w now opts fuel fn s = some c) :
    run_fn w now opts (fuel + more) fn s = some c :=
  collect_fuel_mono w now opts fn fuel more _ _ _ _ c h

theorem collect_returns {S : Type} (w : Nat) (now : S → Int × S) (opts : options_t)
    (fn : Nat → S → Nat × S) (fuel : Nat) (start : Int)
    (hslow : ∀ (n : Nat) (s0 : S), opts.time_min ≤ (npi now fn n s0).1.2) :
    ∀ (left n : Nat) (s : S),
      (collect w now opts fn (fuel + 1) start left n s).isSome = true := by
  have hsearch : ∀ (n : Nat) (s0 : S),
      (search w now opts fn (fuel + 1) n s0).isSome = true := by
    intro n s0
    simp only [search]
    split_ifs with h1 h2
    · exact absurd (hslow n s0) (by omega)
    · rfl
    · rfl
  intro left
  induction left with
  | zero => intro n s; rfl
  | succ left ih =>
    intro n s
    simp only [collect]
    obtain ⟨r, hr⟩ := Option.isSome_iff_exists.mp (hsearch n s)
    rw [hr]
    simp only
    split_ifs
    · rfl
    · rw [Option.isSome_map']
      exact ih _ _

/-- A candidate whose invocations always reach the floor is measured with one
invocation per sample, whatever the counter: the collector returns. -/
theorem run_fn_returns {S : Type} (w : Nat) (now : S → Int × S) (opts : options_t)
    (fn : Nat → S → Nat × S) (fuel : Nat) (s : S)
    (hslow : ∀ (n : Nat) (s0 : S), opts.time_min ≤ (npi now fn n s0).1.2) :
    (run_fn w now opts (fuel + 1) fn s).isSome = true :=
  collect_returns w now opts fn fuel _ hslow _ _ _

theorem iteration_double_iterate (w : Nat) (n : Nat) (hn : n < 2 ^ w) :
    ∀ r : Nat, (iteration_double w)^[r] n = (n * 2 ^ r) % 2 ^ w := by
  intro r
  induction r with
  | zero => simp [Nat.mod_eq_of_lt hn]
  | succ r ih =>
    rw [Function.iterate_succ_apply', ih]
    unfold iteration_double
    rw [Nat.mod_mul_mod, pow_succ, Nat.mul_assoc]

theorem doubling_requests_getElem (w : Nat) (D : Int) (l : List invocation_t) :
    ∀ (n k : Nat) (v : Nat), (doubling_requests w D n l)[k]? = some v →
      v = (iteration_double w)^[(l.take k).countP (fun c => decide (c.elapsed < D))] n := by
  induction l with
  | nil => intro n k v h; simp [doubling_requests] at h
  | cons c cs ih =>
    intro n k v h
    cases k with
    | zero =>
      simp [doubling_requests] at h
      simp [h]
    | succ k =>
      simp only [doubling_requests, List.getElem?_cons_succ] at h
      have := ih _ k v h
      rw [this]
      by_cases hc : c.elapsed < D
      · simp [hc, List.countP_cons, Function.iterate_succ_apply]
      · simp [hc, List.countP_cons]

theorem doubling_requests_next (w : Nat) (D : Int) (a b : List invocation_t)
    (x y : invocation_t) (n : Nat)
    (h : (a ++ x :: y :: b).map invocation_t.times
      = doubling_requests w D n (a ++ x :: y :: b)) :
    y.times = if x.elapsed < D then iteration_double w x.times else x.times := by
  rw [doubling_requests_append, List.map_append] at h
  have hl : (a.map invocation_t.times).length = (doubling_requests w D n a).length := by
    simp [doubling_requests_length]
  have h2 := (List.append_inj h hl).2
  simp only [List.map_cons, doubling_requests, List.cons.injEq] at h2
  rw [h2.2.1, h2.1]

/-- What a collection run that returns has done. -/
theorem collect_some {S : Type} (w : Nat) (now : S → Int × S) (opts : options_t)
    (fn : Nat → S → Nat × S) (fuel : Nat) (start : Int) :
    ∀ (left n : Nat) (s : S) (c : collected_t S),
      collect w now opts fn fuel start left n s = some c →
        c.samples = c.searches.filterMap (fun log => log.sample)
          ∧ c.searches.length ≤ left
          ∧ (∀ log ∈ c.searches, accepted opts.time_min log ∨ cut_short opts.time_min log)
          ∧ (all_calls c.searches).map invocation_t.times
              = doubling_requests w opts.time_min n (all_calls c.searches)
          ∧ c.n = doubling_final w opts.time_min n (all_calls c.searches)
          ∧ (n < iteration_max w → ∀ log, c.searches.head? = some log → log.calls ≠ [])
          ∧ c.searches.Chain' (fun l1 l2 => l1.sample ≠ none → l2.calls ≠ []) := by
  intro left
  induction left with
  | zero =>
    intro n s c h
    simp only [collect, Option.some.injEq] at h
    subst h
    simp [all_calls, doubling_requests, doubling_final]
  | succ left ih =>
    intro n s c h
    simp only [collect] at h
    split at h
    · cases h
    · rename_i r hr
      obtain ⟨e1, e2, e3⟩ := search_some w now opts fn fuel n s r hr
      have hfirst : n < iteration_max w → r.log.calls ≠ [] := by
        intro hn hnil
        rcases e3 with ⟨⟨early, last, c1, -⟩, -⟩ | ⟨-, c3⟩
        · rw [hnil] at c1; simp at c1
        · rw [hnil] at e2; simp only [doubling_final] at e2; rw [e2] at c3; exact c3 hn
      have hlog : accepted opts.time_min r.log ∨ cut_short opts.time_min r.log :=
        e3.elim (fun x => Or.inl x.1) (fun x => Or.inr x.1)
      have hnext : r.log.sample ≠ none → r.n < iteration_max w := by
        intro hs
        rcases e3 with ⟨-, c5⟩ | ⟨⟨-, c2⟩, -⟩
        · exact c5
        · exact absurd c2 hs
      split_ifs at h with ht
      · cases h
        refine ⟨?_, ?_, ?_, ?_, ?_, ?_, ?_⟩
        · cases hsm : r.log.sample <;> simp [hsm]
        · simp
        · intro log hl; simp at hl; subst hl; exact hlog
        · simpa [all_calls] using e1
        · simpa [all_calls] using e2
        · intro hn log hl; simp at hl; subst hl; exact hfirst hn
        · simp
      · obtain ⟨out, hout, rfl⟩ := Option.map_eq_some'.mp h
        obtain ⟨f1, f2, f3, f4, f5, f6, f7⟩ := ih _ _ _ hout
        have hall : all_calls (r.log :: out.searches) = r.log.calls ++ all_calls out.searches := by
          simp [all_calls]
        refine ⟨?_, ?_, ?_, ?_, ?_, ?_, ?_⟩
        · cases hsm : r.log.sample <;> simp [hsm, f1]
        · simp; omega
        · intro log hl
          rcases List.mem_cons.mp hl with rfl | hl
          · exact hlog
          · exact f3 log hl
        · show (all_calls (r.log :: out.searches)).map invocation_t.times = _
          rw [hall, doubling_requests_append, List.map_append, e1, ← e2, f4]
        · show out.n = doubling_final w opts.time_min n (all_calls (r.log :: out.searches))
          rw [hall, doubling_final_append, ← e2, f5]
        · intro hn log hl; simp at hl; subst hl; exact hfirst hn
        · show List.Chain' _ (r.log :: out.searches)
          rw [List.chain'_cons']
          refine ⟨?_, f7⟩
          intro log hl hs
          exact f6 (hnext hs) log (by simpa using hl)

/-- A candidate that never reaches the floor keeps a counter that starts at a
power of two doubling until it wraps to zero, and then stays at zero: the
search does not return, whatever the fuel. -/
theorem search_never_returns {S : Type} (w : Nat) (now : S → Int × S) (opts : options_t)
    (fn : Nat → S → Nat × S) (hw : 2 ≤ w)
    (hfast : ∀ (n : Nat) (s : S), (npi now fn n s).1.2 < opts.time_min) :
    ∀ (fuel k : Nat) (s : S), k ≤ w →
      search w now opts fn fuel (2 ^ k % 2 ^ w) s = none := by
  intro fuel
  induction fuel with
  | zero => intro k s _; rfl
  | succ fuel ih =>
    intro k s hk
    have hpos : 4 ≤ 2 ^ w := by
      calc 4 = 2 ^ 2 := by norm_num
        _ ≤ 2 ^ w := Nat.pow_le_pow_right (by norm_num) hw
    have hguard : 2 ^ k % 2 ^ w < iteration_max w := by
      unfold iteration_max
      rcases Nat.lt_or_ge k w with hlt | hge
      · have h1 : 2 ^ k < 2 ^ w := Nat.pow_lt_pow_right (by norm_num) hlt
        rw [Nat.mod_eq_of_lt h1]
        have h2 : 2 ^ k ≤ 2 ^ (w - 1) := Nat.pow_le_pow_right (by norm_num) (by omega)
        have h3 : 2 ^ w = 2 * 2 ^ (w - 1) := by
          rw [← pow_succ']; congr 1; omega
        have h4 : 2 ≤ 2 ^ (w - 1) := by
          calc 2 = 2 ^ 1 := by norm_num
            _ ≤ 2 ^ (w - 1) := Nat.pow_le_pow_right (by norm_num) (by omega)
        omega
      · have : k = w := le_antisymm hk hge
        subst this
        simp
        omega
    have hnext : iteration_double w (2 ^ k % 2 ^ w) = 2 ^ (min (k + 1) w) % 2 ^ w := by
      unfold iteration_double
      rcases Nat.lt_or_ge k w with hlt | hge
      · rw [Nat.mod_mul_mod, ← pow_succ, Nat.min_eq_left (by omega)]
      · have : k = w := le_antisymm hk hge
        subst this
        simp
    simp only [search, hguard, hfast, if_true]
    rw [hnext, ih _ _ (Nat.min_le_right _ _)]
    rfl

theorem search_at_guard {S : Type} (w : Nat) (now : S → Int × S) (opts : options_t)
    (fn : Nat → S → Nat × S) (fuel n : Nat) (s : S) (r : search_t S)
    (hn : ¬ n < iteration_max w) (h : search w now opts fn fuel n s = some r) :
    r.log.calls = [] ∧ r.n = n := by
  cases fuel with
  | zero => simp [search] at h
  | succ fuel =>
    simp only [search, hn, if_false, Option.some.injEq] at h
    subst h
    exact ⟨rfl, rfl⟩

/-- Only a search that accepted is followed by a search that makes an
invocation. -/
theorem collect_chain_back {S : Type} (w : Nat) (now : S → Int × S) (opts : options_t)
    (fn : Nat → S → Nat × S) (fuel : Nat) (start : Int) :
    ∀ (left n : Nat) (s : S) (c : collected_t S),
      collect w now opts fn fuel start left n s = some c →
        (¬ n < iteration_max w → ∀ log, c.searches.head? = some log → log.calls = [])
          ∧ c.searches.Chain' (fun l1 l2 => l2.calls ≠ [] → l1.sample ≠ none) := by
  intro left
  induction left with
  | zero =>
    intro n s c h
    simp only [collect, Option.some.injEq] at h
    subst h
    simp
  | succ left ih =>
    intro n s c h
    simp only [collect] at h
    split at h
    · cases h
    · rename_i r hr
      have hfirst : ¬ n < iteration_max w → r.log.calls = [] := fun hn =>
        (search_at_guard w now opts fn fuel n s r hn hr).1
      obtain ⟨-, -, e3⟩ := search_some w now opts fn fuel n s r hr
      have hnext : r.log.sample = none → ¬ r.n < iteration_max w := by
        intro hs
        rcases e3 with ⟨⟨_, _, _, _, _, c4⟩, -⟩ | ⟨-, c3⟩
        · rw [hs] at c4; cases c4
        · exact c3
      split_ifs at h with ht
      · cases h
        refine ⟨?_, by simp⟩
        intro hn log hl
        simp at hl
        subst hl
        exact hfirst hn
      · obtain ⟨out, hout, rfl⟩ := Option.map_eq_some'.mp h
        obtain ⟨f1, f2⟩ := ih _ _ _ hout
        refine ⟨?_, ?_⟩
        · intro hn log hl
          simp at hl
          subst hl
          exact hfirst hn
        · show List.Chain' _ (r.log :: out.searches)
          rw [List.chain'_cons']
          refine ⟨?_, f2⟩
          intro log hl hne hs
          exact hne (f1 (hnext hs) log (by simpa using hl))

/-- Inside a sequence of invocations that follows the doubling rule, every
stretch follows the rule from its own first request. -/
theorem doubling_requests_segment (w : Nat) (D : Int) (a b : List invocation_t)
    (f : invocation_t) (seg : List invocation_t) (n : Nat)
    (h : (a ++ (f :: seg) ++ b).map invocation_t.times
      = doubling_requests w D n (a ++ (f :: seg) ++ b)) :
    (f :: seg).map invocation_t.times = doubling_requests w D f.times (f :: seg) := by
  rw [List.append_assoc, doubling_requests_append, List.map_append] at h
  have hl : (a.map invocation_t.times).length = (doubling_requests w D n a).length := by
    simp [doubling_requests_length]
  have h2 := (List.append_inj h hl).2
  rw [doubling_requests_append, List.map_append] at h2
  have hl2 : ((f :: seg).map invocation_t.times).length
      = (doubling_requests w D (doubling_final w D n a) (f :: seg)).length := by
    simp [doubling_requests_length]
  have h3 := (List.append_inj h2 hl2).1
  have hf : f.times = doubling_final w D n a := by
    simp only [List.map_cons, doubling_requests, List.cons.injEq] at h3
    exact h3.1
  rw [hf]
  exact h3

/-- The loop that keeps the totals is the outer loop of the collector. -/
theorem collect_eq_assemble {S : Type} (w : Nat) (now : S → Int × S) (opts : options_t)
    (fn : Nat → S → Nat × S) (fuel : Nat) (start : Int) :
    ∀ (left n : Nat) (s : S),
      collect w now opts fn fuel start left n s
        = (collect_steps w now opts fn fuel start left n s).map (assemble n s) := by
  intro left
  induction left with
  | zero => intro n s; rfl
  | succ left ih =>
    intro n s
    simp only [collect, collect_steps]
    cases hr : search w now opts fn fuel n s with
    | none => rfl
    | some r =>
      simp only
      split_ifs with ht
      · simp [assemble]
      · rw [ih, Option.map_map, Option.map_map]
        rfl

theorem assemble_state {S : Type} :
    ∀ (steps : List (step_t S)) (n : Nat) (s : S) (st : step_t S),
      steps.getLast? = some st → (assemble n s steps).state = st.after := by
  intro steps
  induction steps with
  | nil => intro n s st h; simp at h
  | cons a rest ih =>
    intro n s st h
    cases rest with
    | nil =>
      simp only [List.getLast?_singleton, Option.some.injEq] at h
      subst h
      rfl
    | cons b rest2 =>
      rw [List.getLast?_cons_cons] at h
      have := ih a.result.n a.after st h
      simpa only [assemble] using this

/-- What the outer loop does, iteration by iteration. -/
theorem collect_steps_some {S : Type} (w : Nat) (now : S → Int × S) (opts : options_t)
    (fn : Nat → S → Nat × S) (fuel : Nat) (start : Int) :
    ∀ (left n : Nat) (s : S) (steps : List (step_t S)),
      collect_steps w now opts fn fuel start left n s = some steps →
        steps.length ≤ left
          ∧ (∀ st ∈ steps, st.total = (now st.result.state).1 - start
              ∧ st.after = (now st.result.state).2)
          ∧ (∀ st, steps.head? = some st → search w now opts fn fuel n s = some st.result)
          ∧ steps.Chain'
              (fun a b => search w now opts fn fuel a.result.n a.after = some b.result)
          ∧ (∀ (pre post : List (step_t S)) (st : step_t S), steps = pre ++ st :: post →
              opts.time_max ≤ st.total → post = []) := by
  intro left
  induction left with
  | zero =>
    intro n s steps h
    simp only [collect_steps, Option.some.injEq] at h
    subst h
    simp
  | succ left ih =>
    intro n s steps h
    simp only [collect_steps] at h
    split at h
    · cases h
    · rename_i r hr
      split_ifs at h with ht
      · cases h
        refine ⟨by simp, ?_, ?_, by simp, ?_⟩
        · intro st hst
          simp only [List.mem_singleton] at hst
          subst hst
          exact ⟨rfl, rfl⟩
        · intro st hst
          simp only [List.head?_cons, Option.some.injEq] at hst
          subst hst
          exact hr
        · intro pre post st hsplit _
          cases pre with
          | nil =>
            simp only [List.nil_append, List.cons.injEq] at hsplit
            exact hsplit.2.symm
          | cons a pre2 =>
            simp only [List.cons_append, List.cons.injEq] at hsplit
            have := congrArg List.length hsplit.2
            simp at this
            omega
      · obtain ⟨rest, hrest, rfl⟩ := Option.map_eq_some'.mp h
        obtain ⟨f1, f2, f3, f4, f5⟩ := ih _ _ _ hrest
        refine ⟨by simp; omega, ?_, ?_, ?_, ?_⟩
        · intro st hst
          rcases List.mem_cons.mp hst with rfl | hst
          · exact ⟨rfl, rfl⟩
          · exact f2 st hst
        · intro st hst
          simp only [List.head?_cons, Option.some.injEq] at hst
          subst hst
          exact hr
        · rw [List.chain'_cons']
          refine ⟨?_, f4⟩
          intro b hb
          exact f3 b (by simpa using hb)
        · intro pre post st hsplit hst
          cases pre with
          | nil =>
            simp only [List.nil_append, List.cons.injEq] at hsplit
            rw [← hsplit.1] at hst
            exact absurd hst ht
          | cons a pre2 =>
            simp only [List.cons_append, List.cons.injEq] at hsplit
            exact f5 pre2 post st hsplit.2 hst

/-! ## Basic facts about the adapters -/

theorem reports_length {S : Type} (h : S → Nat × S) :
    ∀ (times : Nat) (s : S), (reports h times s).length = times := by
  intro times
  induction times with
  | zero => intro s; rfl
  | succ times ih => intro s; simp [reports, ih]

/-- The loop of the repeater adds the reported counts to the count so far and
applies the candidate once per round. -/
theorem repeater_loop_spec {S : Type} (w : Nat) (h : S → Nat × S) :
    ∀ (times iters : Nat) (s : S), iters < 2 ^ w →
      repeater_loop w h times iters s
        = ((iters + (reports h times s).sum) % 2 ^ w, (fun s0 => (h s0).2)^[times] s) := by
  intro times
  induction times with
  | zero =>
    intro iters s hi
    simp [repeater_loop, reports, Nat.mod_eq_of_lt hi]
  | succ times ih =>
    intro iters s hi
    have hlt : iteration_add w iters (h s).1 < 2 ^ w :=
      Nat.mod_lt _ (Nat.pow_pos (by norm_num))
    simp only [repeater_loop, reports, List.sum_cons, Function.iterate_succ_apply]
    rw [ih _ _ hlt]
    unfold iteration_add
    rw [Nat.mod_add_mod, Nat.add_assoc]

theorem reports_const {S : Type} (k : Nat) (step : S → S) :
    ∀ (times : Nat) (s : S),
      reports (fun s0 => (k, step s0)) times s = List.replicate times k := by
  intro times
  induction times with
  | zero => intro s; rfl
  | succ times ih => intro s; simp [reports, ih, List.replicate_succ]

theorem iterate_counted {S : Type} (h : S → Nat × S) :
    ∀ (times : Nat) (s : S) (c : Nat),
      (fun p => (counted h p).2)^[times] (s, c)
        = ((fun s0 => (h s0).2)^[times] s, c + times) := by
  intro times
  induction times with
  | zero => intro s c; rfl
  | succ times ih =>
    intro s c
    rw [Function.iterate_succ_apply, Function.iterate_succ_apply]
    have hstep : (counted h (s, c)).2 = ((h s).2, c + 1) := rfl
    rw [hstep, ih]
    congr 1
    omega

/-- When a doubling search made the invocations `f, ...` and the next search
makes an invocation at all, the first request of that next search is the last
request of the previous one, whose invocation reached the floor; it is the first
request of the previous search doubled once for every other invocation of the
previous search. -/
theorem next_search_first_request {S : Type} (w : Nat) (now : S → Int × S)
    (opts : options_t) (fuel : Nat) (fn : Nat → S → Nat × S) (s : S) (c : collected_t S)
    (h : run_fn w now opts fuel fn s = some c) :
    ∀ (pre post : List search_log) (l1 l2 : search_log) (f y : invocation_t)
        (tail rest : List invocation_t),
      c.searches = pre ++ l1 :: l2 :: post → l1.calls = f :: tail → l2.calls = y :: rest →
        y.times = (iteration_double w)^[tail.length] f.times
          ∧ ∃ x, (f :: tail).getLast? = some x ∧ y.times = x.times
              ∧ opts.time_min ≤ x.elapsed := by
  intro pre post l1 l2 f y tail rest hsplit hl1 hl2
  obtain ⟨-, -, e3, e4, -, -, -⟩ := collect_some w now opts fn fuel _ _ _ _ c h
  obtain ⟨-, hback⟩ := collect_chain_back w now opts fn fuel _ _ _ _ c h
  have hm1 : l1 ∈ c.searches := by rw [hsplit]; simp
  have hs1 : l1.sample ≠ none := by
    rw [hsplit] at hback
    exact (hback.right_of_append).rel_head (by rw [hl2]; simp)
  obtain ⟨early, x, c1, c2, c3, -⟩ : accepted opts.time_min l1 := by
    rcases e3 l1 hm1 with hacc | ⟨-, hn⟩
    · exact hacc
    · exact absurd hn hs1
  have hlen : tail.length = early.length := by
    have := congrArg List.length (hl1.symm.trans c1)
    simp at this
    omega
  have hall : all_calls c.searches
      = all_calls pre ++ (f :: (tail ++ [y])) ++ (rest ++ all_calls post) := by
    rw [hsplit]
    simp [all_calls, hl1, hl2]
  rw [hall] at e4
  have hseg := doubling_requests_segment w opts.time_min _ _ f (tail ++ [y]) _ e4
  have hidx : ((f :: (tail ++ [y])).map invocation_t.times)[tail.length + 1]?
      = some y.times := by
    simp [List.getElem?_append_right]
  rw [hseg] at hidx
  have hy := doubling_requests_getElem w opts.time_min _ _ _ _ hidx
  have htake : (f :: (tail ++ [y])).take (tail.length + 1) = early ++ [x] := by
    rw [← c1, hl1]
    simp [List.take_append_of_le_length]
  have hcount : (early ++ [x]).countP (fun c => decide (c.elapsed < opts.time_min))
      = early.length := by
    rw [List.countP_append]
    have h1 : early.countP (fun c => decide (c.elapsed < opts.time_min)) = early.length := by
      rw [List.countP_eq_length]
      intro a ha
      simpa using c2 a ha
    have h2 : [x].countP (fun c => decide (c.elapsed < opts.time_min)) = 0 := by
      rw [List.countP_eq_zero]
      intro a ha
      simp only [List.mem_singleton] at ha
      subst ha
      simpa using c3
    omega
  rw [htake, hcount, ← hlen] at hy
  refine ⟨hy, x, ?_, ?_, c3⟩
  · rw [← hl1, c1]; simp
  · have hall2 : all_calls c.searches
        = (all_calls pre ++ early) ++ x :: y :: (rest ++ all_calls post) := by
      rw [hsplit]
      simp [all_calls, c1, hl2]
    obtain ⟨-, -, -, e4', -⟩ := collect_some w now opts fn fuel _ _ _ _ c h
    rw [hall2] at e4'
    have := doubling_requests_next w opts.time_min _ _ x y _ e4'
    rw [this, if_neg (by omega)]

/-! ## Basic facts about the orchestrator -/

theorem measure_each_length {S : Type} (w : Nat) (now : S → Int × S) (opts : options_t)
    (fuel : Nat) : ∀ (l : List (benchmark_t S)) (s : S) (out : List stats_t × S),
      measure_each w now opts fuel l s = some out → out.1.length = l.length := by
  intro l
  induction l with
  | nil => intro s out h; simp only [measure_each, Option.some.injEq] at h; subst h; rfl
  | cons b rest ih =>
    intro s out h
    simp only [measure_each] at h
    split at h
    · cases h
    · obtain ⟨o, ho, rfl⟩ := Option.map_eq_some'.mp h
      simp [ih _ _ ho]

theorem run_each_eq {S : Type} (w : Nat) (now : S → Int × S) (opts : options_t)
    (fuel : Nat) : ∀ (l : List (benchmark_t S)) (s : S),
      run_each w now opts fuel l s
        = (measure_each w now opts fuel l s).map fun out =>
            ((List.zipWith standalone_events l out.1).flatten, out.2) := by
  intro l
  induction l with
  | nil => intro s; rfl
  | cons b rest ih =>
    intro s
    simp only [run_each, measure_each, run_benchmark]
    cases hc : run_fn w now opts fuel b.fn s with
    | none => rfl
    | some c =>
      simp only [Option.map_some']
      rw [ih]
      cases measure_each w now opts fuel rest c.state with
      | none => rfl
      | some out => simp [standalone_events]

theorem run_each_against_eq {S : Type} (w : Nat) (now : S → Int × S) (opts : options_t)
    (fuel : Nat) : ∀ (l : List (benchmark_t S)) (held : Option stats_t) (s : S),
      run_each_against w now opts fuel l held s
        = (measure_each w now opts fuel l s).map fun out =>
            ((List.zipWith (comparison_events (held.getD (out.1.headD ⟨[]⟩))) l out.1).flatten,
              out.2) := by
  intro l
  induction l with
  | nil => intro held s; rfl
  | cons b rest ih =>
    intro held s
    simp only [run_each_against, measure_each, run_benchmark_against]
    cases hc : run_fn w now opts fuel b.fn s with
    | none => rfl
    | some c =>
      simp only [Option.map_some']
      rw [ih]
      cases measure_each w now opts fuel rest c.state with
      | none => rfl
      | some out => cases held <;> simp [comparison_events]

theorem head?_filter_eq_find? {α : Type} (p : α → Bool) (l : List α) :
    (l.filter p).head? = l.find? p := by
  induction l with
  | nil => rfl
  | cons a l ih =>
    cases ha : p a with
    | true => simp [List.filter_cons, List.find?_cons, ha]
    | false => simp [List.filter_cons, List.find?_cons, ha, ih]

theorem first_tag_eq_any {S : Type} (l : List (benchmark_t S)) (first : benchmark_t S)
    (rest : List (benchmark_t S))
    (h : stable_sort compare_by_baseline l = first :: rest) :
    first.baseline = l.any (fun b => b.baseline) := by
  rw [compare_by_baseline_eq, stable_sort_eq_filter] at h
  cases hF : l.filter (fun b => b.baseline) with
  | nil =>
    rw [hF, List.nil_append] at h
    have hmem : first ∈ l.filter (fun b => !b.baseline) := by rw [h]; simp
    have h1 := (List.mem_filter.mp hmem).2
    simp only [Bool.not_eq_eq_eq_not, Bool.not_true] at h1
    rw [h1]
    symm
    rw [List.any_eq_false]
    exact List.filter_eq_nil_iff.mp hF
  | cons f fs =>
    rw [hF, List.cons_append] at h
    have hff : f = first := (List.cons.inj h).1
    have hmem : f ∈ l.filter (fun b => b.baseline) := by rw [hF]; simp
    have h1 := List.mem_filter.mp hmem
    rw [← hff, h1.2]
    symm
    rw [List.any_eq_true]
    exact ⟨f, h1.1, h1.2⟩

theorem first_is_earliest_baseline {S : Type} (l : List (benchmark_t S))
    (first : benchmark_t S) (rest : List (benchmark_t S))
    (h : stable_sort compare_by_baseline l = first :: rest)
    (hb : ∃ b ∈ l, b.baseline = true) :
    l.find? (fun b => b.baseline) = some first := by
  have hh : (stable_sort compare_by_baseline l).head? = some first := by rw [h]; rfl
  rw [compare_by_baseline_eq, stable_sort_eq_filter, List.head?_append,
    head?_filter_eq_find?] at hh
  have hsome : (l.find? fun b => b.baseline).isSome = true := by
    rw [List.find?_isSome]; exact hb
  obtain ⟨x, hx⟩ := Option.isSome_iff_exists.mp hsome
  rw [hx] at hh ⊢
  simpa using hh

/-- A group run, in terms of the summaries of its candidates. -/
theorem run_namespace_eq {S : Type} (w : Nat) (now : S → Int × S) (opts : options_t)
    (fuel : Nat) (name : String) (ns : namespace_t S) (s : S) :
    run_namespace w now opts fuel name ns s
      = (measure_each w now opts fuel (stable_sort compare_by_baseline ns.benchmarks) s).map
          fun out =>
            (group_events name (stable_sort compare_by_baseline ns.benchmarks)
              (result_events (ns.benchmarks.any fun b => b.baseline) out.1),
              out.2) := by
  unfold run_namespace result_events
  cases hsorted : stable_sort compare_by_baseline ns.benchmarks with
  | nil =>
    simp [measure_each, group_events]
  | cons first rest =>
    have hany := first_tag_eq_any ns.benchmarks first rest hsorted
    cases hf : first.baseline with
    | true =>
      rw [hf] at hany
      simp only [hf, if_true, ← hany, run_each_against_eq, Option.map_map]
      congr 1
      funext out
      simp only [group_events, List.zipWith_map_right, Function.comp_def]
      rfl
    | false =>
      rw [hf] at hany
      simp only [hf, ← hany, Bool.false_eq_true, if_false, run_each_eq, Option.map_map]
      congr 1
      funext out
      simp only [group_events, List.zipWith_map_right, Function.comp_def]
      rfl

theorem mem_candidate_events {S : Type} (e : event_t) :
    ∀ (l : List (benchmark_t S)) (rs : List event_t),
      e ∈ (List.zipWith (fun b r => [event_t.benchmark_name b.description, r]) l rs).flatten →
        (∃ d, e = event_t.benchmark_name d) ∨ e ∈ rs := by
  intro l
  induction l with
  | nil => intro rs h; simp at h
  | cons b l ih =>
    intro rs h
    cases rs with
    | nil => simp at h
    | cons r rs =>
      simp only [List.zipWith_cons_cons, List.flatten_cons, List.mem_append, List.mem_cons,
        List.mem_singleton, List.not_mem_nil, or_false] at h
      rcases h with (h | h) | h
      · exact Or.inl ⟨_, h⟩
      · exact Or.inr (by simp [h])
      · rcases ih rs h with h | h
        · exact Or.inl h
        · exact Or.inr (List.mem_cons_of_mem _ h)

theorem mem_group_events {S : Type} (e : event_t) (name : String)
    (l : List (benchmark_t S)) (rs : List event_t) (h : e ∈ group_events name l rs) :
    is_result e = false ∨ e ∈ rs := by
  simp only [group_events, List.mem_cons, List.mem_append, List.mem_singleton,
    List.not_mem_nil, or_false] at h
  rcases h with h | h | h
  · left; rw [h]; rfl
  · rcases mem_candidate_events e l rs h with ⟨d, hd⟩ | h
    · left; rw [hd]; rfl
    · exact Or.inr h
  · left; rw [h]; rfl

theorem measure_each_isSome {S : Type} (w : Nat) (now : S → Int × S) (opts : options_t)
    (fuel : Nat) : ∀ (l : List (benchmark_t S)),
      (∀ b ∈ l, ∀ s : S, (run_fn w now opts fuel b.fn s).isSome = true) →
        ∀ s : S, (measure_each w now opts fuel l s).isSome = true := by
  intro l
  induction l with
  | nil => intro _ s; rfl
  | cons b rest ih =>
    intro hall s
    simp only [measure_each]
    have h1 := hall b (List.mem_cons_self _ _) s
    obtain ⟨c, hc⟩ := Option.isSome_iff_exists.mp h1
    rw [hc]
    have h2 := ih (fun x hx => hall x (List.mem_cons_of_mem _ hx)) c.state
    obtain ⟨o, ho⟩ := Option.isSome_iff_exists.mp h2
    simp [ho]

/-- The events of the groups of a run that returns. -/
theorem run_namespaces_some {S : Type} (w : Nat) (now : S → Int × S) (opts : options_t)
    (fuel : Nat) : ∀ (groups : List (String × namespace_t S)) (s : S)
      (out : List event_t × S),
      run_namespaces w now opts fuel groups s = some out →
        ∃ results : List (List event_t),
          List.Forall₂
              (fun g rs => rs.length = g.2.benchmarks.length ∧ ∀ r ∈ rs, is_result r = true)
              groups results
            ∧ out.1 = (List.zipWith
                (fun g rs =>
                  group_events g.1 (stable_sort compare_by_baseline g.2.benchmarks) rs)
                groups results).flatten := by
  intro groups
  induction groups with
  | nil =>
    intro s out h
    simp only [run_namespaces, Option.some.injEq] at h
    subst h
    exact ⟨[], List.Forall₂.nil, rfl⟩
  | cons g rest ih =>
    intro s out h
    simp only [run_namespaces] at h
    split at h
    · cases h
    · rename_i evs s1 hg
      obtain ⟨o, ho, rfl⟩ := Option.map_eq_some'.mp h
      obtain ⟨results, hres, hevs⟩ := ih _ _ ho
      rw [run_namespace_eq] at hg
      obtain ⟨m, hm, hmeq⟩ := Option.map_eq_some'.mp hg
      have hlen := measure_each_length w now opts fuel _ _ _ hm
      rw [(stable_sort_length g.2.benchmarks)] at hlen
      simp only [Prod.mk.injEq] at hmeq
      refine ⟨result_events (g.2.benchmarks.any fun b => b.baseline) m.1 :: results,
        List.Forall₂.cons ⟨?_, ?_⟩ hres, ?_⟩
      · unfold result_events; split_ifs <;> simp [hlen]
      · intro r hr
        unfold result_events at hr
        split_ifs at hr
        · obtain ⟨st, -, rfl⟩ := List.mem_map.mp hr; rfl
        · obtain ⟨st, -, rfl⟩ := List.mem_map.mp hr; rfl
      · simp only [List.zipWith_cons_cons, List.flatten_cons]
        rw [← hevs, ← hmeq.1]

/-! ## Basic facts about the registry -/

theorem keys_push_back_at {S : Type} (ns : String) (b : benchmark_t S) :
    ∀ m : List (String × namespace_t S),
      (push_back_at ns b m).map Prod.fst
        = if ns ∈ m.map Prod.fst then m.map Prod.fst else m.map Prod.fst ++ [ns] := by
  intro m
  induction m with
  | nil => simp [push_back_at]
  | cons e rest ih =>
    simp only [push_back_at]
    by_cases he : e.1 = ns
    · simp [he]
    · have hne : ¬ ns = e.1 := fun h => he h.symm
      simp only [he, if_false, List.map_cons, ih, List.mem_cons, hne, false_or]
      split_ifs <;> simp

theorem mem_push_back_at {S : Type} (ns : String) (b : benchmark_t S)
    (g : String × namespace_t S) :
    ∀ m : List (String × namespace_t S), (m.map Prod.fst).Nodup → g ∈ push_back_at ns b m →
      (g ∈ m ∧ g.1 ≠ ns)
        ∨ (g.1 = ns ∧ ∃ old ∈ m, old.1 = ns ∧ g.2.benchmarks = old.2.benchmarks ++ [b])
        ∨ (g.1 = ns ∧ ns ∉ m.map Prod.fst ∧ g.2.benchmarks = [b]) := by
  intro m
  induction m with
  | nil =>
    intro _ h
    simp only [push_back_at, List.mem_singleton] at h
    subst h
    exact Or.inr (Or.inr ⟨rfl, by simp, rfl⟩)
  | cons e rest ih =>
    intro hnd h
    simp only [List.map_cons, List.nodup_cons] at hnd
    simp only [push_back_at] at h
    by_cases he : e.1 = ns
    · simp only [he, if_true, List.mem_cons] at h
      rcases h with h | h
      · subst h
        exact Or.inr (Or.inl ⟨rfl, e, List.mem_cons_self _ _, he, rfl⟩)
      · by_cases hg : g.1 = ns
        · exfalso
          apply hnd.1
          rw [he, ← hg]
          exact List.mem_map_of_mem _ h
        · exact Or.inl ⟨List.mem_cons_of_mem _ h, hg⟩
    · simp only [he, if_false, List.mem_cons] at h
      rcases h with h | h
      · subst h
        exact Or.inl ⟨List.mem_cons_self _ _, he⟩
      · rcases ih hnd.2 h with ⟨h1, h2⟩ | ⟨h1, old, h2, h3, h4⟩ | ⟨h1, h2, h3⟩
        · exact Or.inl ⟨List.mem_cons_of_mem _ h1, h2⟩
        · exact Or.inr (Or.inl ⟨h1, old, List.mem_cons_of_mem _ h2, h3, h4⟩)
        · refine Or.inr (Or.inr ⟨h1, ?_, h3⟩)
          simp only [List.map_cons, List.mem_cons, not_or]
          exact ⟨fun h => he h.symm, h2⟩

theorem registered_under_append {S : Type} (name : String)
    (regs : List (registration_t S)) (r : registration_t S) :
    registered_under name (regs ++ [r])
      = if r.ns = name then registered_under name regs ++ [⟨r.baseline, r.cs, r.fn⟩]
        else registered_under name regs := by
  unfold registered_under
  by_cases h : r.ns = name <;> simp [List.filter_append, List.filter_cons, h]

/-- The registry that a sequence of registrations builds from the empty one:
its keys are distinct and are the registered names, and every group holds the
candidates registered under its name, in registration order. -/
theorem register_all_spec {S : Type} (opts : options_t) (regs : List (registration_t S)) :
    ((register_all regs ⟨[], opts⟩).namespaces.map Prod.fst).Nodup
      ∧ (∀ name, name ∈ (register_all regs ⟨[], opts⟩).namespaces.map Prod.fst
          ↔ ∃ r ∈ regs, r.ns = name)
      ∧ (∀ g ∈ (register_all regs ⟨[], opts⟩).namespaces,
          g.2.benchmarks = registered_under g.1 regs)
      ∧ (register_all regs ⟨[], opts⟩).options = opts := by
  induction regs using List.reverseRecOn with
  | nil => simp [register_all]
  | append_singleton regs r ih =>
    obtain ⟨i1, i2, i3, i4⟩ := ih
    have hstep : register_all (regs ++ [r]) ⟨[], opts⟩
        = add (register_all regs ⟨[], opts⟩) r.ns r.cs r.baseline r.fn := by
      simp [register_all, List.foldl_append]
    rw [hstep]
    have hkeys := keys_push_back_at r.ns ⟨r.baseline, r.cs, r.fn⟩
      (register_all regs ⟨[], opts⟩).namespaces
    refine ⟨?_, ?_, ?_, ?_⟩
    · show ((push_back_at _ _ _).map Prod.fst).Nodup
      rw [hkeys]
      split_ifs with hmem
      · exact i1
      · rw [List.nodup_append]
        refine ⟨i1, by simp, ?_⟩
        intro a ha hb
        simp only [List.mem_singleton] at hb
        subst hb
        exact hmem ha
    · intro name
      show name ∈ (push_back_at _ _ _).map Prod.fst ↔ _
      rw [hkeys]
      split_ifs with hmem
      · rw [i2]
        constructor
        · rintro ⟨x, hx, rfl⟩
          exact ⟨x, by simp [hx], rfl⟩
        · rintro ⟨x, hx, rfl⟩
          rcases List.mem_append.mp hx with hx | hx
          · exact ⟨x, hx, rfl⟩
          · simp only [List.mem_singleton] at hx
            subst hx
            exact (i2 _).mp hmem
      · rw [List.mem_append, i2]
        constructor
        · rintro (⟨x, hx, rfl⟩ | hx)
          · exact ⟨x, by simp [hx], rfl⟩
          · simp only [List.mem_singleton] at hx
            exact ⟨r, by simp, hx.symm⟩
        · rintro ⟨x, hx, rfl⟩
          rcases List.mem_append.mp hx with hx | hx
          · exact Or.inl ⟨x, hx, rfl⟩
          · simp only [List.mem_singleton] at hx
            subst hx
            exact Or.inr (by simp)
    · intro g hg
      rw [registered_under_append]
      rcases mem_push_back_at r.ns ⟨r.baseline, r.cs, r.fn⟩ g _ i1 hg with
        ⟨h1, h2⟩ | ⟨h1, old, h2, h3, h4⟩ | ⟨h1, h2, h3⟩
      · rw [if_neg (fun h => h2 h.symm)]
        exact i3 g h1
      · rw [if_pos h1.symm, h4, i3 old h2, h3, h1]
      · rw [if_pos h1.symm, h3]
        have : registered_under g.1 regs = [] := by
          unfold registered_under
          rw [List.map_eq_nil_iff, List.filter_eq_nil_iff]
          intro x hx hxn
          simp only [decide_eq_true_eq] at hxn
          apply h2
          rw [i2]
          exact ⟨x, hx, by rw [hxn, h1]⟩
        rw [this]
        rfl
    · exact i4

theorem run_namespaces_isSome {S : Type} (w : Nat) (now : S → Int × S) (opts : options_t)
    (fuel : Nat) : ∀ (groups : List (String × namespace_t S)),
      (∀ g ∈ groups, ∀ b ∈ g.2.benchmarks, ∀ s : S,
        (run_fn w now opts fuel b.fn s).isSome = true) →
      ∀ s : S, (run_namespaces w now opts fuel groups s).isSome = true := by
  intro groups
  induction groups with
  | nil => intro _ s; rfl
  | cons g rest ih =>
    intro hall s
    simp only [run_namespaces]
    have h1 : (run_namespace w now opts fuel g.1 g.2 s).isSome = true := by
      rw [run_namespace_eq, Option.isSome_map']
      apply measure_each_isSome
      intro b hb
      exact hall g (List.mem_cons_self _ _) b ((mem_stable_sort _ b).mp hb)
    obtain ⟨o, ho⟩ := Option.isSome_iff_exists.mp h1
    rw [ho]
    have h2 := ih (fun x hx => hall x (List.mem_cons_of_mem _ hx)) o.2
    obtain ⟨o2, ho2⟩ := Option.isSome_iff_exists.mp h2
    simp [ho2]

theorem benchmarks_of_push_back_at {S : Type} (ns name : String) (b : benchmark_t S)
    (opts : options_t) :
    ∀ m : List (String × namespace_t S),
      benchmarks_of name ⟨push_back_at ns b m, opts⟩
        = if name = ns then benchmarks_of name ⟨m, opts⟩ ++ [b]
          else benchmarks_of name ⟨m, opts⟩ := by
  intro m
  induction m with
  | nil =>
    by_cases h : name = ns
    · simp [benchmarks_of, push_back_at, h]
    · have h2 : ¬ ns = name := fun e => h e.symm
      simp [benchmarks_of, push_back_at, h, h2]
  | cons e rest ih =>
    simp only [benchmarks_of] at ih ⊢
    by_cases he : e.1 = ns
    · by_cases h : name = ns
      · simp [push_back_at, he, h, List.find?_cons]
      · have h2 : ¬ ns = name := fun e => h e.symm
        simp [push_back_at, he, h, h2, List.find?_cons]
    · by_cases hn : e.1 = name
      · have h : ¬ name = ns := fun e2 => he (hn.trans e2)
        simp [push_back_at, he, hn, h, List.find?_cons]
      · simp only [push_back_at, he, if_false, List.find?_cons, hn, decide_False]
        exact ih

/-! ## The reorder -/

/-- C3: the order in which a group is processed is the baseline-tagged
candidates in registration order followed by the other candidates in
registration order; it is a permutation of the registered list, and no
candidate without the tag comes before one that has it. -/
theorem baseline_first_reorder {S : Type} (l : List (benchmark_t S)) :
    stable_sort compare_by_baseline l
        = l.filter (fun b => b.baseline) ++ l.filter (fun b => !b.baseline)
      ∧ (stable_sort compare_by_baseline l).Perm l
      ∧ (stable_sort compare_by_baseline l).length = l.length
      ∧ (stable_sort compare_by_baseline l).Pairwise
          (fun a b => ¬ (a.baseline = false ∧ b.baseline = true)) := by
  have h : stable_sort compare_by_baseline l
      = l.filter (fun b => b.baseline) ++ l.filter (fun b => !b.baseline) := by
    rw [compare_by_baseline_eq, stable_sort_eq_filter]
  have hp : (stable_sort compare_by_baseline l).Perm l := by
    rw [h]; exact List.filter_append_perm _ l
  refine ⟨h, hp, hp.length_eq, ?_⟩
  rw [h, List.pairwise_append]
  refine ⟨?_, ?_, ?_⟩
  · rw [List.pairwise_iff_forall_sublist]
    intro a b hab
    have ha : a ∈ l.filter (fun b => b.baseline) := hab.subset (by simp)
    have := (List.mem_filter.mp ha).2
    simp [this]
  · rw [List.pairwise_iff_forall_sublist]
    intro a b hab
    have hb : b ∈ l.filter (fun b => !b.baseline) := hab.subset (by simp)
    have := (List.mem_filter.mp hb).2
    simp only [Bool.not_eq_eq_eq_not, Bool.not_true] at this
    simp [this]
  · intro a ha b _
    have := (List.mem_filter.mp ha).2
    simp [this]

/-- C4: label every candidate with its registration index; then in the
processing order, two candidates with the same baseline tag stand in the order
of their registration indices, the labelled order is a permutation of the
labelled registered list and forgetting the labels gives the order that is
run. The comparator is irreflexive and transitive, and two candidates are
incomparable exactly when their tags are equal. -/
theorem reorder_is_stable {S : Type} (l : List (benchmark_t S)) :
    (processing_order l).map Prod.snd = stable_sort compare_by_baseline l
      ∧ (processing_order l).Perm l.enum
      ∧ (∀ (i j : Nat) (a b : Nat × benchmark_t S),
          (processing_order l)[i]? = some a → (processing_order l)[j]? = some b →
          a.2.baseline = b.2.baseline → (i < j ↔ a.1 < b.1))
      ∧ (∀ a : benchmark_t S, compare_by_baseline a a = false)
      ∧ (∀ a b c : benchmark_t S, compare_by_baseline a b = true →
          compare_by_baseline b c = true → compare_by_baseline a c = true)
      ∧ (∀ a b : benchmark_t S,
          (compare_by_baseline a b = false ∧ compare_by_baseline b a = false)
            ↔ a.baseline = b.baseline) := by
  have hpw := processing_order_pairwise l
  refine ⟨?_, ?_, ?_, ?_, ?_, ?_⟩
  · unfold processing_order
    rw [stable_sort_map Prod.snd benchmark_t.baseline, List.enum_map_snd]
    rfl
  · unfold processing_order
    rw [stable_sort_eq_filter]
    exact List.filter_append_perm _ _
  · have key : ∀ (i j : Nat) (a b : Nat × benchmark_t S),
        (processing_order l)[i]? = some a → (processing_order l)[j]? = some b →
        a.2.baseline = b.2.baseline → i < j → a.1 < b.1 := by
      intro i j a b hi hj hab hij
      obtain ⟨hi1, hi2⟩ := List.getElem?_eq_some.mp hi
      obtain ⟨hj1, hj2⟩ := List.getElem?_eq_some.mp hj
      have := List.pairwise_iff_getElem.mp hpw i j hi1 hj1 hij
      rw [hi2, hj2] at this
      exact this hab
    intro i j a b hi hj hab
    constructor
    · exact key i j a b hi hj hab
    · intro hlt
      rcases Nat.lt_trichotomy i j with h | h | h
      · exact h
      · subst h
        rw [hi] at hj
        cases hj
        exact absurd hlt (Nat.lt_irrefl _)
      · have := key j i b a hj hi hab.symm h
        omega
  · intro a; unfold compare_by_baseline; cases a.baseline <;> decide
  · intro a b c; unfold compare_by_baseline
    cases a.baseline <;> cases b.baseline <;> cases c.baseline <;> decide
  · intro a b; unfold compare_by_baseline
    cases a.baseline <;> cases b.baseline <;> decide

theorem reorder_is_stable_witness :
    (processing_order shuffled_group)[1]? = some (0, ⟨false, "v2", steady 2000000⟩)
      ∧ (processing_order shuffled_group)[2]? = some (2, ⟨false, "v3", steady 2000000⟩)
      ∧ (1 < 2 ↔ 0 < 2) :=
  ⟨rfl, rfl,
    (reorder_is_stable shuffled_group).2.2.1 1 2 (0, ⟨false, "v2", steady 2000000⟩)
      (2, ⟨false, "v3", steady 2000000⟩) rfl rfl rfl⟩

/-! ## The run orchestrator -/

/-- C1: in a group with at least one baseline-tagged candidate, the first
candidate in processing order is the earliest-registered baseline-tagged one,
its summary is the first thing computed, it is reported against itself, and
every other candidate of the group is reported against that same summary. -/
theorem baseline_is_first_summary {S : Type} (w : Nat) (now : S → Int × S)
    (opts : options_t) (fuel : Nat) (name : String) (ns : namespace_t S) (s : S)
    (evs : List event_t) (s1 : S)
    (hb : ∃ b ∈ ns.benchmarks, b.baseline = true)
    (h : run_namespace w now opts fuel name ns s = some (evs, s1)) :
    ∃ (first : benchmark_t S) (rest : List (benchmark_t S)) (base : stats_t)
        (others : List stats_t),
      stable_sort compare_by_baseline ns.benchmarks = first :: rest
        ∧ ns.benchmarks.find? (fun b => b.baseline) = some first
        ∧ (run_fn w now opts fuel first.fn s).map (fun c => stats_t.mk c.samples) = some base
        ∧ others.length = rest.length
        ∧ evs = event_t.package_open name ns.benchmarks.length
            :: event_t.benchmark_name first.description
            :: event_t.benchmark_compare base base
            :: ((List.zipWith
                  (fun b st =>
                    [event_t.benchmark_name b.description, event_t.benchmark_compare st base])
                  rest others).flatten
                ++ [event_t.package_ns 1000000]) := by
  rw [run_namespace_eq] at h
  obtain ⟨m, hm, hmeq⟩ := Option.map_eq_some'.mp h
  simp only [Prod.mk.injEq] at hmeq
  have hany : (ns.benchmarks.any fun b => b.baseline) = true := by
    rw [List.any_eq_true]; exact hb
  have hlen := measure_each_length w now opts fuel _ _ _ hm
  cases hsorted : stable_sort compare_by_baseline ns.benchmarks with
  | nil =>
    obtain ⟨b, hb1, -⟩ := hb
    have := (mem_stable_sort ns.benchmarks b).mpr hb1
    rw [hsorted] at this
    cases this
  | cons first rest =>
    have hfind := first_is_earliest_baseline ns.benchmarks first rest hsorted hb
    have hl := stable_sort_length ns.benchmarks
    rw [hsorted] at hm hlen hl
    simp only [measure_each] at hm
    split at hm
    · cases hm
    · rename_i c hc
      obtain ⟨o, ho, rfl⟩ := Option.map_eq_some'.mp hm
      have hlen2 := measure_each_length w now opts fuel _ _ _ ho
      refine ⟨first, rest, ⟨c.samples⟩, o.1, rfl, hfind, ?_, hlen2, ?_⟩
      · rw [hc]; rfl
      · rw [← hmeq.1, hany, hsorted]
        simp only [List.length_cons] at hl
        simp [group_events, result_events, List.zipWith_map_right, hl]

theorem baseline_is_first_summary_witness :
    (∃ b ∈ math_versions.benchmarks, b.baseline = true)
      ∧ run_namespace 64 wall_clock default_options 20 "math" math_versions 0
          = some ([event_t.package_open "math" 2,
                    event_t.benchmark_name "v1",
                    event_t.benchmark_compare millisecond_stats millisecond_stats,
                    event_t.benchmark_name "v2",
                    event_t.benchmark_compare two_millisecond_stats millisecond_stats,
                    event_t.package_ns 1000000], 2045000000)
      ∧ ∃ (first : benchmark_t Int) (rest : List (benchmark_t Int)) (base : stats_t)
          (others : List stats_t),
        stable_sort compare_by_baseline math_versions.benchmarks = first :: rest
          ∧ math_versions.benchmarks.find? (fun b => b.baseline) = some first
          ∧ (run_fn 64 wall_clock default_options 20 first.fn 0).map
              (fun c => stats_t.mk c.samples) = some base
          ∧ others.length = rest.length
          ∧ [event_t.package_open "math" 2,
              event_t.benchmark_name "v1",
              event_t.benchmark_compare millisecond_stats millisecond_stats,
              event_t.benchmark_name "v2",
              event_t.benchmark_compare two_millisecond_stats millisecond_stats,
              event_t.package_ns 1000000]
            = event_t.package_open "math" math_versions.benchmarks.length
              :: event_t.benchmark_name first.description
              :: event_t.benchmark_compare base base
              :: ((List.zipWith
                    (fun b st =>
                      [event_t.benchmark_name b.description,
                        event_t.benchmark_compare st base])
                    rest others).flatten
                  ++ [event_t.package_ns 1000000]) :=
  ⟨⟨⟨true, "v1", steady 1000000⟩, by simp [math_versions], rfl⟩, rfl,
    baseline_is_first_summary 64 wall_clock default_options 20 "math" math_versions 0
      [event_t.package_open "math" 2, event_t.benchmark_name "v1",
        event_t.benchmark_compare millisecond_stats millisecond_stats,
        event_t.benchmark_name "v2",
        event_t.benchmark_compare two_millisecond_stats millisecond_stats,
        event_t.package_ns 1000000]
      2045000000
      ⟨⟨true, "v1", steady 1000000⟩, by simp [math_versions], rfl⟩ rfl⟩

/-- C2: a group is reported through the comparison path when some candidate
registered in it is baseline-tagged, and through the standalone path when none
is: in the first case every result event carries a baseline and none is a
standalone summary, in the second case every result event is a standalone
summary and none carries a baseline; either way there is one result event per
candidate. -/
theorem path_selection {S : Type} (w : Nat) (now : S → Int × S)
    (opts : options_t) (fuel : Nat) (name : String) (ns : namespace_t S) (s : S)
    (evs : List event_t) (s1 : S)
    (h : run_namespace w now opts fuel name ns s = some (evs, s1)) :
    ((∃ b ∈ ns.benchmarks, b.baseline = true) →
        (∃ (base : stats_t) (sts : List stats_t),
          sts.length = ns.benchmarks.length
            ∧ evs = group_events name (stable_sort compare_by_baseline ns.benchmarks)
                (sts.map fun st => event_t.benchmark_compare st base))
          ∧ ∀ e ∈ evs, is_standalone e = false)
      ∧ ((∀ b ∈ ns.benchmarks, b.baseline = false) →
        (∃ sts : List stats_t,
          sts.length = ns.benchmarks.length
            ∧ evs = group_events name (stable_sort compare_by_baseline ns.benchmarks)
                (sts.map fun st => event_t.benchmark_stats st))
          ∧ ∀ e ∈ evs, carries_baseline e = false) := by
  rw [run_namespace_eq] at h
  obtain ⟨m, hm, hmeq⟩ := Option.map_eq_some'.mp h
  simp only [Prod.mk.injEq] at hmeq
  have hlen := measure_each_length w now opts fuel _ _ _ hm
  rw [stable_sort_length] at hlen
  constructor
  · intro hb
    have hany : (ns.benchmarks.any fun b => b.baseline) = true := by
      rw [List.any_eq_true]; exact hb
    rw [hany] at hmeq
    simp only [result_events, if_true] at hmeq
    refine ⟨⟨m.1.headD ⟨[]⟩, m.1, hlen, hmeq.1.symm⟩, ?_⟩
    intro e he
    rw [← hmeq.1] at he
    rcases mem_group_events e _ _ _ he with h1 | h1
    · cases e <;> first | rfl | cases h1
    · obtain ⟨st, -, rfl⟩ := List.mem_map.mp h1; rfl
  · intro hb
    have hany : (ns.benchmarks.any fun b => b.baseline) = false := by
      rw [List.any_eq_false]
      intro x hx
      simp [hb x hx]
    rw [hany] at hmeq
    simp only [result_events, Bool.false_eq_true, if_false] at hmeq
    refine ⟨⟨m.1, hlen, hmeq.1.symm⟩, ?_⟩
    intro e he
    rw [← hmeq.1] at he
    rcases mem_group_events e _ _ _ he with h1 | h1
    · cases e <;> first | rfl | cases h1
    · obtain ⟨st, -, rfl⟩ := List.mem_map.mp h1; rfl

theorem path_selection_witness :
    run_namespace 64 wall_clock default_options 20 "math" math_naive 0
        = some ([event_t.package_open "math" 1,
                  event_t.benchmark_name "naive",
                  event_t.benchmark_stats millisecond_stats,
                  event_t.package_ns 1000000], 1023000000)
      ∧ (∀ b ∈ math_naive.benchmarks, b.baseline = false)
      ∧ carries_baseline (event_t.benchmark_stats millisecond_stats) = false :=
  ⟨rfl, by simp [math_naive],
    ((path_selection 64 wall_clock default_options 20 "math" math_naive 0
        [event_t.package_open "math" 1, event_t.benchmark_name "naive",
          event_t.benchmark_stats millisecond_stats, event_t.package_ns 1000000]
        1023000000 rfl).2
      (by simp [math_naive])).2 _ (by simp)⟩

/-- C5: for the registry built by any sequence of registrations, a run whose
measurements all return does return, and the events of a run that returns are:
the number of groups; then for every group, once each and in the iteration
order of the map, its name with its number of candidates, then for every
candidate in processing order its label followed by one result event, then the
group's close marker; and at the end the global close marker. The groups are
the distinct registered names, and the announced number of candidates of a
group is the number of candidates registered under its name, which is also the
number of label and result pairs of the group. -/
theorem sink_event_order {S : Type} (w : Nat) (now : S → Int × S) (fuel : Nat)
    (opts : options_t) (regs : List (registration_t S)) (d : impl S) (s : S)
    (hd : d = register_all regs ⟨[], opts⟩) :
    ((∀ r ∈ regs, ∀ s0 : S, (run_fn w now opts fuel r.fn s0).isSome = true) →
        (run w now fuel d s).isSome = true)
      ∧ ∀ (evs : List event_t) (s1 : S), run w now fuel d s = some (evs, s1) →
          ∃ results : List (List event_t),
            List.Forall₂
                (fun g rs => rs.length = (registered_under g.1 regs).length
                  ∧ ∀ r ∈ rs, is_result r = true)
                d.namespaces results
              ∧ evs = run_events d.namespaces results
              ∧ (d.namespaces.map Prod.fst).Nodup
              ∧ (∀ name, name ∈ d.namespaces.map Prod.fst ↔ ∃ r ∈ regs, r.ns = name)
              ∧ d.namespaces.length = (regs.map registration_t.ns).toFinset.card
              ∧ ∀ g ∈ d.namespaces,
                  (stable_sort compare_by_baseline g.2.benchmarks).length
                    = (registered_under g.1 regs).length := by
  obtain ⟨i1, i2, i3, i4⟩ := register_all_spec opts regs
  rw [← hd] at i1 i2 i3 i4
  constructor
  · intro hall
    unfold run
    rw [Option.isSome_map', i4]
    apply run_namespaces_isSome
    intro g hg b hb s0
    rw [i3 g hg] at hb
    unfold registered_under at hb
    obtain ⟨r, hr, rfl⟩ := List.mem_map.mp hb
    exact hall r (List.mem_filter.mp hr).1 s0
  · intro evs s1 h
    unfold run at h
    obtain ⟨o, ho, hoeq⟩ := Option.map_eq_some'.mp h
    simp only [Prod.mk.injEq] at hoeq
    obtain ⟨results, hres, hevs⟩ := run_namespaces_some w now _ fuel _ _ _ ho
    refine ⟨results, ?_, ?_, i1, i2, ?_, ?_⟩
    · rw [List.forall₂_iff_zip] at hres ⊢
      refine ⟨hres.1, ?_⟩
      intro g rs hmem
      rw [← i3 g (List.of_mem_zip hmem).1]
      exact hres.2 hmem
    · rw [← hoeq.1, hevs]
      rfl
    · have : d.namespaces.length = (d.namespaces.map Prod.fst).toFinset.card := by
        rw [List.toFinset_card_of_nodup i1, List.length_map]
      rw [this]
      congr 1
      ext name
      simp only [List.mem_toFinset]
      rw [i2]
      simp
    · intro g hg
      rw [stable_sort_length, i3 g hg]

theorem sink_event_order_witness :
    run 64 wall_clock 20 (register_all sample_registrations ⟨[], default_options⟩) 0
        = some (sample_events, 3067000000)
      ∧ ((register_all sample_registrations ⟨[], default_options⟩).namespaces.map
          Prod.fst).Nodup :=
  ⟨rfl,
    let ⟨_, h⟩ := (sink_event_order 64 wall_clock 20 default_options sample_registrations
      (register_all sample_registrations ⟨[], default_options⟩) 0 rfl).2
        sample_events 3067000000 rfl
    h.2.2.1⟩

/-! ## The sample collector -/

/-- C6, as the source has it: a doubling search pushes a sample exactly when one
of its invocations reached the floor, so a search that stops at the loop guard
pushes nothing: the samples are the samples of the searches that accepted, one
each and in order, and there are at most as many samples as outer iterations.
A search in which no invocation reached the floor returns only with the
counter at the guard. -/
theorem samples_of_accepting_searches {S : Type} (w : Nat) (now : S → Int × S)
    (opts : options_t) (fuel : Nat) (fn : Nat → S → Nat × S) (s : S) (c : collected_t S)
    (h : run_fn w now opts fuel fn s = some c) :
    c.samples = c.searches.filterMap (fun log => log.sample)
      ∧ (∀ log ∈ c.searches,
          (log.sample = none ↔ ∀ e ∈ log.calls, e.elapsed < opts.time_min))
      ∧ c.samples.length = c.searches.countP (fun log => log.sample.isSome)
      ∧ c.samples.length ≤ c.searches.length
      ∧ (∀ (n : Nat) (s1 : S) (r : search_t S), search w now opts fn fuel n s1 = some r →
          (∀ e ∈ r.log.calls, e.elapsed < opts.time_min) →
            r.log.sample = none ∧ ¬ r.n < iteration_max w) := by
  obtain ⟨e1, -, e3, -⟩ := collect_some w now opts fn fuel _ _ _ _ c h
  refine ⟨e1, ?_, ?_, ?_, ?_⟩
  · intro log hl
    rcases e3 log hl with ⟨early, last, c1, c2, c3, c4⟩ | ⟨c1, c2⟩
    · constructor
      · intro hn; rw [hn] at c4; cases c4
      · intro hall
        have := hall last (by rw [c1]; simp)
        omega
    · exact ⟨fun _ => c1, fun _ => c2⟩
  · rw [e1, List.length_filterMap_eq_countP]
  · rw [e1]; exact List.length_filterMap_le _ _
  · intro n s1 r hr hall
    obtain ⟨-, -, e⟩ := search_some w now opts fn fuel n s1 r hr
    rcases e with ⟨⟨early, last, c1, c2, c3, c4⟩, -⟩ | ⟨⟨-, c2⟩, c3⟩
    · have := hall last (by rw [c1]; simp)
      omega
    · exact ⟨c2, c3⟩

/-- C6, evaluated: with the counter starting at the largest value of a 64-bit
counter the one outer iteration that is performed makes no invocation and
pushes no sample, so one outer iteration yields zero samples. -/
theorem saturated_counter_gives_no_sample :
    (run_fn 64 (ticking 1000000000) saturated_options 8 (steady 1000000) 0).map
        (fun c => (c.searches, c.samples))
      = some ([⟨[], none⟩], []) := by
  rfl

theorem samples_of_accepting_searches_witness :
    run_fn 64 (ticking 1000000000) saturated_options 8 (steady 1000000) 0
        = some saturated_run
      ∧ saturated_run.samples.length ≤ saturated_run.searches.length :=
  ⟨rfl, (samples_of_accepting_searches 64 (ticking 1000000000) saturated_options 8
    (steady 1000000) 0 saturated_run rfl).2.2.2.1⟩

/-- C7, evaluated: on a 64-bit counter that starts at 1, a candidate whose
invocations always measure 5 nanoseconds never lets the doubling search
return: the counter wraps to zero, which is below the guard, and stays there. -/
theorem doubling_search_diverges :
    ∀ fuel : Nat, search 64 wall_clock default_options (flat 5) fuel 1 0 = none := by
  intro fuel
  have h := search_never_returns 64 wall_clock default_options (flat 5) (by norm_num)
    (by intro n s; simp [npi, wall_clock, flat, default_options]) fuel 0 0 (by norm_num)
  simpa using h

/-- C8, evaluated: on a 64-bit counter that starts at 1, the requests of one
doubling search are 1, 2, 4, ..., 2^63 and then 0: the request after 2^63 is
smaller than its predecessor. -/
theorem request_after_wrap_is_smaller :
    (search 64 wall_clock default_options stall 70 1 0).map
        (fun r => r.log.calls.map invocation_t.times)
      = some ((List.range 64).map (fun k => 2 ^ k) ++ [0]) := by
  decide

/-- C9: every sample that the collector returns was pushed by one of its
doubling searches, and it was computed from the last invocation of that search,
whose elapsed time is at least `min_duration`, while every earlier invocation
of the same search measured less than `min_duration`. -/
theorem accepted_samples_clear_floor {S : Type} (w : Nat) (now : S → Int × S)
    (opts : options_t) (fuel : Nat) (fn : Nat → S → Nat × S) (s : S) (c : collected_t S)
    (h : run_fn w now opts fuel fn s = some c) :
    ∀ v ∈ c.samples, ∃ log ∈ c.searches, ∃ (early : List invocation_t) (last : invocation_t),
      log.sample = some v ∧ log.calls = early ++ [last]
        ∧ v = sample_value last.elapsed last.iters
        ∧ opts.time_min ≤ last.elapsed
        ∧ ∀ e ∈ early, e.elapsed < opts.time_min := by
  obtain ⟨e1, -, e3, -⟩ := collect_some w now opts fn fuel _ _ _ _ c h
  intro v hv
  rw [e1, List.mem_filterMap] at hv
  obtain ⟨log, hl, hs⟩ := hv
  refine ⟨log, hl, ?_⟩
  rcases e3 log hl with ⟨early, last, c1, c2, c3, c4⟩ | ⟨-, c2⟩
  · refine ⟨early, last, hs, c1, ?_, c3, c2⟩
    rw [hs] at c4
    exact Option.some.inj c4
  · rw [hs] at c2; cases c2

theorem accepted_samples_clear_floor_witness :
    run_fn 64 wall_clock default_options 20 (steady 1000000) 0 = some millisecond_run
      ∧ sample_value 128000000 128 ∈ millisecond_run.samples
      ∧ ∃ log ∈ millisecond_run.searches,
          ∃ (early : List invocation_t) (last : invocation_t),
            log.sample = some (sample_value 128000000 128) ∧ log.calls = early ++ [last]
              ∧ sample_value 128000000 128 = sample_value last.elapsed last.iters
              ∧ default_options.time_min ≤ last.elapsed
              ∧ ∀ e ∈ early, e.elapsed < default_options.time_min :=
  ⟨rfl, by simp [millisecond_run],
    accepted_samples_clear_floor 64 wall_clock default_options 20 (steady 1000000) 0
      millisecond_run rfl (sample_value 128000000 128) (by simp [millisecond_run])⟩

/-- C10: the counter is never reset. The requested count of every invocation
of a collection run is `initial_iterations * 2 ^ r` in the arithmetic of the
counter, where `r` counts the earlier invocations of the whole run that stayed
below `min_duration`, and it is that product itself when the product fits the
counter. After a search that accepted, the next search starts at the accepted
count, and it consists of that one invocation when the invocation reaches
`min_duration`. Every sample is the value that `std::max(0.0, elapsed /
iters_done)` gives for its accepting invocation: for a candidate that reports a
nonzero count it is the quotient clamped at zero, which is `elapsed /
iters_done` itself when `min_duration` is not negative, and for a reported
count of zero with a positive elapsed time it is `+inf`. -/
theorem requests_follow_doubling_rule {S : Type} (w : Nat) (now : S → Int × S)
    (opts : options_t) (fuel : Nat) (fn : Nat → S → Nat × S) (s : S) (c : collected_t S)
    (hi : opts.iters < 2 ^ w)
    (h : run_fn w now opts fuel fn s = some c) :
    (∀ (k : Nat) (inv : invocation_t), (all_calls c.searches)[k]? = some inv →
        inv.times
            = (opts.iters * 2 ^ below_floor opts.time_min ((all_calls c.searches).take k))
                % 2 ^ w
          ∧ (opts.iters * 2 ^ below_floor opts.time_min ((all_calls c.searches).take k)
                < 2 ^ w →
              inv.times
                = opts.iters
                    * 2 ^ below_floor opts.time_min ((all_calls c.searches).take k)))
      ∧ (∀ (pre post : List search_log) (l1 l2 : search_log) (early : List invocation_t)
            (x : invocation_t),
          c.searches = pre ++ l1 :: l2 :: post → l1.calls = early ++ [x] →
          opts.time_min ≤ x.elapsed →
            ∃ (y : invocation_t) (rest : List invocation_t),
              l2.calls = y :: rest ∧ y.times = x.times
                ∧ (opts.time_min ≤ y.elapsed → rest = []))
      ∧ (∀ v ∈ c.samples, ∃ log ∈ c.searches,
          ∃ (early : List invocation_t) (last : invocation_t),
            log.sample = some v ∧ log.calls = early ++ [last]
              ∧ v = sample_value last.elapsed last.iters
              ∧ (last.iters ≠ 0 →
                  v = ((max 0 ((last.elapsed : ℚ) / (last.iters : ℚ)) : ℚ) : WithTop ℚ))
              ∧ (last.iters ≠ 0 → 0 ≤ opts.time_min →
                  v = (((last.elapsed : ℚ) / (last.iters : ℚ) : ℚ) : WithTop ℚ))
              ∧ (last.iters = 0 → 0 < last.elapsed → v = ⊤)) := by
  have hc := collect_some w now opts fn fuel _ _ _ _ c h
  obtain ⟨e1, -, e3, e4, -, -, e7⟩ := hc
  refine ⟨?_, ?_, ?_⟩
  · intro k inv hk
    have hk2 : ((all_calls c.searches).map invocation_t.times)[k]? = some inv.times := by
      rw [List.getElem?_map, hk]; rfl
    rw [e4] at hk2
    have := doubling_requests_getElem w opts.time_min _ _ k _ hk2
    rw [iteration_double_iterate w _ hi] at this
    refine ⟨this, ?_⟩
    intro hfit
    rw [this]
    exact Nat.mod_eq_of_lt hfit
  · intro pre post l1 l2 early x hsplit hl1 hx
    have hm1 : l1 ∈ c.searches := by rw [hsplit]; simp
    have hm2 : l2 ∈ c.searches := by rw [hsplit]; simp
    have hs1 : l1.sample ≠ none := by
      rcases e3 l1 hm1 with ⟨_, _, _, _, _, c4⟩ | ⟨c1, -⟩
      · rw [c4]; simp
      · have := c1 x (by rw [hl1]; simp)
        omega
    have hchain : l2.calls ≠ [] := by
      rw [hsplit] at e7
      exact (e7.right_of_append).rel_head hs1
    obtain ⟨y, rest, hl2⟩ := List.exists_cons_of_ne_nil hchain
    refine ⟨y, rest, hl2, ?_, ?_⟩
    · have hall : all_calls c.searches
          = (all_calls pre ++ early) ++ x :: y :: (rest ++ all_calls post) := by
        rw [hsplit]
        simp [all_calls, hl1, hl2]
      rw [hall] at e4
      have := doubling_requests_next w opts.time_min _ _ x y _ e4
      rw [this, if_neg (by omega)]
    · intro hy
      rcases e3 l2 hm2 with ⟨early2, last2, c1, c2, -, -⟩ | ⟨c1, -⟩
      · rw [hl2] at c1
        cases early2 with
        | nil =>
          simp only [List.nil_append, List.cons.injEq] at c1
          exact c1.2
        | cons a as =>
          simp only [List.cons_append, List.cons.injEq] at c1
          have := c2 a (List.mem_cons_self _ _)
          rw [← c1.1] at this
          omega
      · have := c1 y (by rw [hl2]; simp)
        omega
  · intro v hv
    rw [e1, List.mem_filterMap] at hv
    obtain ⟨log, hl, hs⟩ := hv
    refine ⟨log, hl, ?_⟩
    rcases e3 log hl with ⟨early, last, c1, c2, c3, c4⟩ | ⟨-, c2⟩
    · rw [hs] at c4
      have hv : v = sample_value last.elapsed last.iters := Option.some.inj c4
      refine ⟨early, last, hs, c1, hv, ?_, ?_, ?_⟩
      · intro hne
        rw [hv]
        unfold sample_value
        rw [if_neg hne]
      · intro hne hD
        rw [hv]
        unfold sample_value
        rw [if_neg hne]
        congr 1
        apply max_eq_right
        apply div_nonneg
        · exact_mod_cast le_trans hD c3
        · exact Nat.cast_nonneg _
      · intro hz hpos
        rw [hv]
        unfold sample_value
        rw [if_pos hz, if_pos hpos]
    · rw [hs] at c2; cases c2

theorem requests_follow_doubling_rule_witness :
    default_options.iters < 2 ^ 64
      ∧ run_fn 64 wall_clock default_options 20 (steady 1000000) 0 = some millisecond_run
      ∧ (millisecond_run.searches.head?.map fun log => log.calls.map invocation_t.times)
          = some [1, 2, 4, 8, 16, 32, 64, 128]
      ∧ millisecond_run.samples.head? = some ((1000000 : ℚ) : WithTop ℚ)
      ∧ (all_calls millisecond_run.searches)[7]? = some ⟨128, 128, 128000000⟩
      ∧ (⟨128, 128, 128000000⟩ : invocation_t).times
          = (default_options.iters
              * 2 ^ below_floor default_options.time_min
                  ((all_calls millisecond_run.searches).take 7)) % 2 ^ 64 :=
  ⟨by decide, rfl, by decide, by simp [millisecond_run, sample_value_millisecond], rfl,
    ((requests_follow_doubling_rule 64 wall_clock default_options 20 (steady 1000000) 0
      millisecond_run (by decide) rfl).1 7 ⟨128, 128, 128000000⟩ rfl).1⟩

/-- C11, as the source has it: the counter is set to `initial_iterations` once
and is not reset between samples. The first request of the first sample is
`initial_iterations`. When a doubling search made the invocations `f, ...` and
the next search makes an invocation at all, the first request of that next
search is the last request of the previous one, whose invocation reached
`min_duration`; it is the first request of the previous search doubled once for
every other invocation of the previous search; it is `initial_iterations * 2 ^ r`
in the arithmetic of the counter, where `r` counts the invocations of all
earlier searches that stayed below `min_duration`, and so it is
`initial_iterations` itself when there was no such invocation. -/
theorem later_samples_start_at_accepted_count {S : Type} (w : Nat) (now : S → Int × S)
    (opts : options_t) (fuel : Nat) (fn : Nat → S → Nat × S) (s : S) (c : collected_t S)
    (hi : opts.iters < 2 ^ w)
    (h : run_fn w now opts fuel fn s = some c) :
    (∀ (l0 : search_log) (rest0 : List search_log) (f0 : invocation_t)
        (t0 : List invocation_t),
        c.searches = l0 :: rest0 → l0.calls = f0 :: t0 → f0.times = opts.iters)
      ∧ ∀ (pre post : List search_log) (l1 l2 : search_log) (f y : invocation_t)
          (tail rest : List invocation_t),
        c.searches = pre ++ l1 :: l2 :: post → l1.calls = f :: tail → l2.calls = y :: rest →
          y.times = (iteration_double w)^[tail.length] f.times
            ∧ (∃ x, (f :: tail).getLast? = some x ∧ y.times = x.times
                ∧ opts.time_min ≤ x.elapsed)
            ∧ y.times
                = (opts.iters * 2 ^ below_floor opts.time_min (all_calls (pre ++ [l1])))
                    % 2 ^ w
            ∧ (below_floor opts.time_min (all_calls (pre ++ [l1])) = 0 →
                y.times = opts.iters) := by
  obtain ⟨-, -, -, e4, -, -, -⟩ := collect_some w now opts fn fuel _ _ _ _ c h
  constructor
  · intro l0 rest0 f0 t0 hsplit hl0
    have hall : all_calls c.searches = f0 :: (t0 ++ all_calls rest0) := by
      rw [hsplit]
      simp [all_calls, hl0]
    rw [hall] at e4
    simp only [List.map_cons, doubling_requests, List.cons.injEq] at e4
    exact e4.1
  · intro pre post l1 l2 f y tail rest hsplit hl1 hl2
    obtain ⟨h1, h2⟩ := next_search_first_request w now opts fuel fn s c h
      pre post l1 l2 f y tail rest hsplit hl1 hl2
    have hall : all_calls c.searches
        = all_calls (pre ++ [l1]) ++ y :: (rest ++ all_calls post) := by
      rw [hsplit]
      simp [all_calls, hl2]
    have hidx : ((all_calls c.searches).map invocation_t.times)[
        (all_calls (pre ++ [l1])).length]? = some y.times := by
      rw [hall, List.map_append, List.getElem?_append_right (by simp)]
      simp
    rw [e4] at hidx
    have hy := doubling_requests_getElem w opts.time_min _ _ _ _ hidx
    have htake : (all_calls c.searches).take (all_calls (pre ++ [l1])).length
        = all_calls (pre ++ [l1]) := by
      rw [hall]
      simp
    rw [htake, iteration_double_iterate w _ hi] at hy
    have hy2 : y.times
        = (opts.iters * 2 ^ below_floor opts.time_min (all_calls (pre ++ [l1]))) % 2 ^ w :=
      hy
    refine ⟨h1, h2, hy2, ?_⟩
    intro hzero
    rw [hy2, hzero]
    simp [Nat.mod_eq_of_lt hi]

/-- C11, evaluated: under the default options a candidate that takes a
millisecond per iteration is first requested with 1 in the first doubling
search and with 128 in every later one, not with the configured
`initial_iterations` of 1. -/
theorem later_samples_do_not_restart :
    (run_fn 64 wall_clock default_options 20 (steady 1000000) 0).map
        (fun c => c.searches.map fun log => log.calls.head?.map invocation_t.times)
      = some (some 1 :: List.replicate 6 (some 128)) := by
  decide

theorem later_samples_start_at_accepted_count_witness :
    default_options.iters < 2 ^ 64
      ∧ run_fn 64 wall_clock default_options 20 (steady 1000000) 0 = some millisecond_run
      ∧ (128 : Nat) = (iteration_double 64)^[7] 1 :=
  ⟨by decide, rfl,
    ((later_samples_start_at_accepted_count 64 wall_clock default_options 20
      (steady 1000000) 0 millisecond_run (by decide) rfl).2 []
      (List.replicate 5 ⟨[⟨128, 128, 128000000⟩], some (sample_value 128000000 128)⟩)
      ⟨[⟨1, 1, 1000000⟩, ⟨2, 2, 2000000⟩, ⟨4, 4, 4000000⟩, ⟨8, 8, 8000000⟩,
        ⟨16, 16, 16000000⟩, ⟨32, 32, 32000000⟩, ⟨64, 64, 64000000⟩,
        ⟨128, 128, 128000000⟩], some (sample_value 128000000 128)⟩
      ⟨[⟨128, 128, 128000000⟩], some (sample_value 128000000 128)⟩
      ⟨1, 1, 1000000⟩ ⟨128, 128, 128000000⟩
      [⟨2, 2, 2000000⟩, ⟨4, 4, 4000000⟩, ⟨8, 8, 8000000⟩,
        ⟨16, 16, 16000000⟩, ⟨32, 32, 32000000⟩, ⟨64, 64, 64000000⟩,
        ⟨128, 128, 128000000⟩]
      [] rfl rfl rfl).1⟩

/-- C12: the collector returns at most 1024 samples, from at most 1024
doubling searches. -/
theorem at_most_1024_samples {S : Type} (w : Nat) (now : S → Int × S)
    (opts : options_t) (fuel : Nat) (fn : Nat → S → Nat × S) (s : S) (c : collected_t S)
    (h : run_fn w now opts fuel fn s = some c) :
    c.samples.length ≤ 1024 ∧ c.searches.length ≤ 1024 := by
  obtain ⟨e1, e2, -⟩ := collect_some w now opts fn fuel _ _ _ _ c h
  refine ⟨?_, e2⟩
  rw [e1]
  exact le_trans (List.length_filterMap_le _ _) e2

theorem at_most_1024_samples_witness :
    run_fn 64 wall_clock default_options 20 (steady 1000000) 0 = some millisecond_run
      ∧ millisecond_run.samples.length ≤ 1024 ∧ millisecond_run.searches.length ≤ 1024 :=
  ⟨rfl, at_most_1024_samples 64 wall_clock default_options 20 (steady 1000000) 0
    millisecond_run rfl⟩

/-- C14: every sample that the collector returns is at least zero, whatever
the clock reads. -/
theorem samples_are_nonnegative {S : Type} (w : Nat) (now : S → Int × S)
    (opts : options_t) (fuel : Nat) (fn : Nat → S → Nat × S) (s : S) (c : collected_t S)
    (h : run_fn w now opts fuel fn s = some c) :
    ∀ v ∈ c.samples, 0 ≤ v := by
  obtain ⟨e1, -, e3, -⟩ := collect_some w now opts fn fuel _ _ _ _ c h
  intro v hv
  rw [e1, List.mem_filterMap] at hv
  obtain ⟨log, hl, hs⟩ := hv
  rcases e3 log hl with ⟨early, last, -, -, -, c4⟩ | ⟨-, c2⟩
  · rw [hs] at c4
    rw [Option.some.inj c4]
    exact sample_value_nonneg _ _
  · rw [hs] at c2; cases c2

theorem samples_are_nonnegative_witness :
    run_fn 64 (ticking (-5)) backward_options 4 (flat 0) 0 = some backward_run
      ∧ sample_value (-5) 1 ∈ backward_run.samples
      ∧ (0 : WithTop ℚ) ≤ sample_value (-5) 1 :=
  ⟨by rfl, by simp [backward_run],
    samples_are_nonnegative 64 (ticking (-5)) backward_options 4 (flat 0) 0 backward_run
      (by rfl) (sample_value (-5) 1) (by simp [backward_run])⟩

/-- C13: list the iterations of the outer loop of a collection run, each with
the value `total` that is read after its doubling search. Then the run is made
of exactly these iterations, every search starts in the state left by the
preceding reading of the clock, and an iteration whose `total` is at least
`max_duration` is the last one: the state that the collector returns is the
state right after that reading, so the candidate is not invoked again. Every
iteration that is followed by another one read a `total` below `max_duration`,
hence the last `total` exceeds `max_duration` by less than the time between the
last two readings, and by no more than itself when there is a single iteration
and `max_duration` is not negative. -/
theorem max_duration_stops_collection {S : Type} (w : Nat) (now : S → Int × S)
    (opts : options_t) (fuel : Nat) (fn : Nat → S → Nat × S) (s : S)
    (steps : List (step_t S))
    (h : collect_steps w now opts fn fuel (now s).1 1024 opts.iters (now s).2 = some steps) :
    run_fn w now opts fuel fn s = some (assemble opts.iters (now s).2 steps)
      ∧ (∀ st ∈ steps, st.total = (now st.result.state).1 - (now s).1
          ∧ st.after = (now st.result.state).2)
      ∧ (∀ st, steps.head? = some st →
          search w now opts fn fuel opts.iters (now s).2 = some st.result)
      ∧ steps.Chain'
          (fun a b => search w now opts fn fuel a.result.n a.after = some b.result)
      ∧ (∀ (pre post : List (step_t S)) (st : step_t S), steps = pre ++ st :: post →
          opts.time_max ≤ st.total →
            post = [] ∧ (assemble opts.iters (now s).2 steps).state = st.after)
      ∧ (∀ (pre post : List (step_t S)) (st : step_t S), steps = pre ++ st :: post →
          post ≠ [] → st.total < opts.time_max)
      ∧ (∀ (pre : List (step_t S)) (a b : step_t S), steps = pre ++ [a, b] →
          b.total - opts.time_max < b.total - a.total)
      ∧ (∀ a : step_t S, steps = [a] → 0 ≤ opts.time_max →
          a.total - opts.time_max ≤ a.total) := by
  obtain ⟨-, f2, f3, f4, f5⟩ := collect_steps_some w now opts fn fuel _ _ _ _ steps h
  have hless : ∀ (pre post : List (step_t S)) (st : step_t S), steps = pre ++ st :: post →
      post ≠ [] → st.total < opts.time_max := by
    intro pre post st hsplit hpost
    by_contra hge
    exact hpost (f5 pre post st hsplit (not_lt.mp hge))
  refine ⟨?_, f2, f3, f4, ?_, hless, ?_, ?_⟩
  rotate_left 3
  · intro a _ hmax
    omega
  · unfold run_fn
    simp only
    rw [collect_eq_assemble, h]
    rfl
  · intro pre post st hsplit hst
    have hpost := f5 pre post st hsplit hst
    refine ⟨hpost, ?_⟩
    apply assemble_state
    rw [hsplit, hpost]
    simp
  · intro pre a b hsplit
    have := hless pre [b] a hsplit (by simp)
    omega

theorem max_duration_stops_collection_witness :
    collect_steps 64 wall_clock short_options (steady 1000000) 20 (wall_clock 0).1 1024
        short_options.iters (wall_clock 0).2 = some short_steps
      ∧ run_fn 64 wall_clock short_options 20 (steady 1000000) 0
          = some (assemble short_options.iters (wall_clock 0).2 short_steps)
      ∧ (assemble short_options.iters (wall_clock 0).2 short_steps).samples.length = 2 :=
  ⟨by rfl,
    (max_duration_stops_collection 64 wall_clock short_options 20 (steady 1000000) 0
      short_steps (by rfl)).1,
    by rfl⟩

/-! ## The signature adapters -/

/-- C15: the adapter of a count to count candidate is the candidate itself;
when the candidate reports exactly the requested count, and a count to void
candidate does the same work, the two adapted candidates behave alike and both
report the requested count. -/
theorem wrap_round_trip {S : Type} (f : Nat → S → Nat × S) (g : Nat → S → S)
    (hf : ∀ (n : Nat) (s : S), (f n s).1 = n)
    (hg : ∀ (n : Nat) (s : S), g n s = (f n s).2) :
    wrap_count_count f = f
      ∧ ∀ (n : Nat) (s : S),
          (wrap_count_count f n s).1 = n ∧ (wrap_count_void g n s).1 = n
            ∧ wrap_count_count f n s = wrap_count_void g n s := by
  refine ⟨rfl, ?_⟩
  intro n s
  refine ⟨hf n s, rfl, ?_⟩
  show f n s = (n, g n s)
  rw [hg]
  exact Prod.ext (hf n s) rfl

theorem wrap_round_trip_witness :
    (∀ (n : Nat) (s : Int), (steady 1000000 n s).1 = n)
      ∧ wrap_count_count (steady 1000000) = steady 1000000
      ∧ (wrap_count_count (steady 1000000) 8 0).1 = 8
      ∧ (wrap_count_void (fun n t => (steady 1000000 n t).2) 8 (0 : Int)).1 = 8 :=
  ⟨fun _ _ => rfl,
    (wrap_round_trip (steady 1000000) (fun n t => (steady 1000000 n t).2)
      (fun _ _ => rfl) (fun _ _ => rfl)).1,
    ((wrap_round_trip (steady 1000000) (fun n t => (steady 1000000 n t).2)
      (fun _ _ => rfl) (fun _ _ => rfl)).2 8 0).1,
    ((wrap_round_trip (steady 1000000) (fun n t => (steady 1000000 n t).2)
      (fun _ _ => rfl) (fun _ _ => rfl)).2 8 0).2.1⟩

/-- C16: the adapter of a count to void candidate applies the candidate once,
to the requested count, and reports that count; a candidate that records its
arguments has recorded the requested count and nothing else. -/
theorem wrap_count_void_spec {S : Type} (g : Nat → S → S) (n : Nat) (s : S) :
    wrap_count_void g n s = (n, g n s)
      ∧ wrap_count_void (logged g) n (s, []) = (n, (g n s, [n])) := by
  exact ⟨rfl, rfl⟩

/-- C17: the repeater calls a candidate without argument as many times as
requested, each call in the state left by the one before, and reports the sum
of the counts of these calls in the arithmetic of the counter: nothing is
called and zero is reported for a request of zero, and `n * k` is reported
when every call reports `k`. -/
theorem repeater_sums_reports {S : Type} (w : Nat) (h : S → Nat × S) (n : Nat) (s : S) :
    (wrap_nullary_count w h n s).1 = (reports h n s).sum % 2 ^ w
      ∧ (reports h n s).length = n
      ∧ (wrap_nullary_count w h n s).2 = (fun s0 => (h s0).2)^[n] s
      ∧ (wrap_nullary_count w (counted h) n (s, 0)).2 = ((fun s0 => (h s0).2)^[n] s, n)
      ∧ wrap_nullary_count w h 0 s = (0, s)
      ∧ ∀ (k : Nat) (step : S → S),
          (wrap_nullary_count w (fun s0 => (k, step s0)) n s).1 = (n * k) % 2 ^ w := by
  have hpos : 0 < 2 ^ w := Nat.pow_pos (by norm_num)
  refine ⟨?_, reports_length h n s, ?_, ?_, rfl, ?_⟩
  · show (repeater_loop w h n 0 s).1 = _
    rw [repeater_loop_spec w h n 0 s hpos]
    simp
  · show (repeater_loop w h n 0 s).2 = _
    rw [repeater_loop_spec w h n 0 s hpos]
  · show (repeater_loop w (counted h) n 0 (s, 0)).2 = _
    rw [repeater_loop_spec w (counted h) n 0 (s, 0) hpos]
    simp only
    rw [iterate_counted]
    simp
  · intro k step
    show (repeater_loop w _ n 0 s).1 = _
    rw [repeater_loop_spec w _ n 0 s hpos, reports_const]
    simp

/-- C18: the adapter of a void candidate without argument calls it as many
times as requested and reports the requested count, as the adapter of a count
to void candidate does. -/
theorem wrap_nullary_void_spec {S : Type} (w : Nat) (f : S → S) (n : Nat) (s : S)
    (hn : n < 2 ^ w) :
    wrap_nullary_void w f n s = (n, f^[n] s)
      ∧ (wrap_nullary_void w (counted_void f) n (s, 0)).2 = (f^[n] s, n)
      ∧ ∀ g : Nat → S → S, (wrap_nullary_void w f n s).1 = (wrap_count_void g n s).1 := by
  have hpos : 0 < 2 ^ w := Nat.pow_pos (by norm_num)
  have hrep : ∀ (T : Type) (q : T → T) (t : T),
      wrap_nullary_void w q n t = (n, q^[n] t) := by
    intro T q t
    show repeater_loop w (single q) n 0 t = _
    rw [repeater_loop_spec w (single q) n 0 t hpos]
    have h1 : reports (single q) n t = List.replicate n 1 := reports_const 1 q n t
    rw [h1]
    simp [single, Nat.mod_eq_of_lt hn]
  refine ⟨hrep S f s, ?_, ?_⟩
  · rw [hrep]
    simp only
    have : ∀ (m c : Nat) (t : S), (counted_void f)^[m] (t, c) = (f^[m] t, c + m) := by
      intro m
      induction m with
      | zero => intro c t; rfl
      | succ m ih =>
        intro c t
        rw [Function.iterate_succ_apply, Function.iterate_succ_apply]
        have hstep : counted_void f (t, c) = (f t, c + 1) := rfl
        rw [hstep, ih]
        congr 1
        omega
    rw [this]
    simp
  · intro g
    rw [hrep]
    rfl

theorem wrap_nullary_void_spec_witness :
    3 < 2 ^ 64
      ∧ wrap_nullary_void 64 (fun t : Int => t + 1000000) 3 0
          = (3, (fun t : Int => t + 1000000)^[3] 0) :=
  ⟨by decide, (wrap_nullary_void_spec 64 (fun t : Int => t + 1000000) 3 0 (by decide)).1⟩

/-! ## The registry -/

/-- C19: `overlord_t::add` is defined on every registry and every argument.
Afterwards the group `ns` holds its previous candidates, none if it did not
exist, followed by the new candidate, so it is one candidate longer whatever
the labels already present; the group exists; every other group holds what it
held; no group disappears and only `ns` can be new; the options are kept and
the keys stay distinct. -/
theorem registration_appends {S : Type} (d : impl S) (ns cs : String) (baseline : Bool)
    (fn : Nat → S → Nat × S) :
    benchmarks_of ns (add d ns cs baseline fn) = benchmarks_of ns d ++ [⟨baseline, cs, fn⟩]
      ∧ (benchmarks_of ns (add d ns cs baseline fn)).length = (benchmarks_of ns d).length + 1
      ∧ ns ∈ (add d ns cs baseline fn).namespaces.map Prod.fst
      ∧ (∀ name : String, name ≠ ns →
          benchmarks_of name (add d ns cs baseline fn) = benchmarks_of name d)
      ∧ (add d ns cs baseline fn).namespaces.map Prod.fst
          = (if ns ∈ d.namespaces.map Prod.fst then d.namespaces.map Prod.fst
              else d.namespaces.map Prod.fst ++ [ns])
      ∧ (add d ns cs baseline fn).options = d.options
      ∧ ((d.namespaces.map Prod.fst).Nodup →
          ((add d ns cs baseline fn).namespaces.map Prod.fst).Nodup) := by
  have hkeys := keys_push_back_at ns ⟨baseline, cs, fn⟩ d.namespaces
  have hlook : ∀ name : String, benchmarks_of name (add d ns cs baseline fn)
      = if name = ns then benchmarks_of name d ++ [⟨baseline, cs, fn⟩]
        else benchmarks_of name d :=
    fun name => benchmarks_of_push_back_at ns name ⟨baseline, cs, fn⟩ d.options d.namespaces
  have h1 : benchmarks_of ns (add d ns cs baseline fn)
      = benchmarks_of ns d ++ [⟨baseline, cs, fn⟩] := by
    rw [hlook, if_pos rfl]
  refine ⟨h1, by rw [h1]; simp, ?_, ?_, hkeys, rfl, ?_⟩
  · show ns ∈ (push_back_at _ _ _).map Prod.fst
    rw [hkeys]
    split_ifs with hmem
    · exact hmem
    · simp
  · intro name hne
    rw [hlook, if_neg hne]
  · intro hnd
    show ((push_back_at _ _ _).map Prod.fst).Nodup
    rw [hkeys]
    split_ifs with hmem
    · exact hnd
    · rw [List.nodup_append]
      refine ⟨hnd, by simp, ?_⟩
      intro a ha hb
      simp only [List.mem_singleton] at hb
      subst hb
      exact hmem ha

/-- C20: in a registry built from the empty one by calls of `overlord_t::add`,
every group has a candidate: its list is not empty, the number of candidates
announced for it is at least one, and the processing order has a first
candidate whose baseline tag can be read. -/
theorem registered_groups_are_nonempty {S : Type} (opts : options_t)
    (regs : List (registration_t S)) (g : String × namespace_t S)
    (hg : g ∈ (register_all regs ⟨[], opts⟩).namespaces) :
    g.2.benchmarks ≠ []
      ∧ 1 ≤ (stable_sort compare_by_baseline g.2.benchmarks).length
      ∧ ∃ (first : benchmark_t S) (rest : List (benchmark_t S)),
          stable_sort compare_by_baseline g.2.benchmarks = first :: rest := by
  obtain ⟨-, i2, i3, -⟩ := register_all_spec opts regs
  have hkey : g.1 ∈ (register_all regs ⟨[], opts⟩).namespaces.map Prod.fst :=
    List.mem_map_of_mem _ hg
  obtain ⟨r, hr, hrn⟩ := (i2 g.1).mp hkey
  have hne : g.2.benchmarks ≠ [] := by
    rw [i3 g hg]
    unfold registered_under
    intro hnil
    rw [List.map_eq_nil_iff, List.filter_eq_nil_iff] at hnil
    exact hnil r hr (by simpa using hrn)
  have hlen : 1 ≤ (stable_sort compare_by_baseline g.2.benchmarks).length := by
    rw [stable_sort_length]
    exact List.length_pos.mpr hne
  refine ⟨hne, hlen, ?_⟩
  cases hs : stable_sort compare_by_baseline g.2.benchmarks with
  | nil => rw [hs] at hlen; simp at hlen
  | cons first rest => exact ⟨first, rest, rfl⟩

theorem registered_groups_are_nonempty_witness :
    (("io", ⟨[⟨false, "read", steady 2000000⟩]⟩) : String × namespace_t Int)
        ∈ (register_all sample_registrations ⟨[], default_options⟩).namespaces
      ∧ 1 ≤ (stable_sort compare_by_baseline
          ([⟨false, "read", steady 2000000⟩] : List (benchmark_t Int))).length :=
  ⟨by
      rw [show (register_all sample_registrations ⟨[], default_options⟩).namespaces
        = [("math", ⟨[⟨true, "v1", steady 1000000⟩, ⟨false, "v2", steady 2000000⟩]⟩),
            ("io", ⟨[⟨false, "read", steady 2000000⟩]⟩)] from rfl]
      exact List.mem_cons_of_mem _ (List.mem_cons_self _ _),
    (registered_groups_are_nonempty default_options sample_registrations
      ("io", ⟨[⟨false, "read", steady 2000000⟩]⟩)
      (by
        rw [show (register_all sample_registrations ⟨[], default_options⟩).namespaces
          = [("math", ⟨[⟨true, "v1", steady 1000000⟩, ⟨false, "v2", steady 2000000⟩]⟩),
              ("io", ⟨[⟨false, "read", steady 2000000⟩]⟩)] from rfl]
        exact List.mem_cons_of_mem _ (List.mem_cons_self _ _))).2.1⟩

end epicmeter
